import Mathlib

/-!
# Verification of `hidropy.meteodays.meteodays` (functions `date2doy` and `event2time`)

Shallow embedding of the two functions of `src/hidropy/meteodays/meteodays.py`.

Modelling conventions:

* Python floats are modelled as exact rationals (`ℚ`).  All concrete inputs
  appearing in the development are exactly representable, and `datetime`
  arithmetic on them is exact, so the idealisation is faithful there.
* Python `datetime` objects are modelled by their absolute time in seconds
  since 00:00:00 of January 1 of year 1 of the proleptic Gregorian calendar
  (the value `datetime.toordinal` is built on).  Comparison of `datetime`
  objects is comparison of those absolute times.
* An out-of-bounds sequence access (Python `IndexError`), an empty input
  (`doytime[0]` on an empty array) and a non-positive interval (Python
  `ZeroDivisionError` for 0, non-termination for negative values) are all
  modelled by the result `none`; a normal return is `some`.
* The Python 2 expression `275 * mm / 9` is integer floor division, hence
  `Int.fdiv` below.  The float based leap-year test
  `mod(y/4.0,1)==0 and mod(y/100.0,1)!=0 or mod(y/400.0,1)==0` is exact
  divisibility testing for every year a `datetime` can hold, hence the
  integer remainder test below.
-/

namespace Hidropy

/-- Leap-year test of the source (lines 68-69 / 82-83): divisible by 4 and not
by 100, or divisible by 400. -/
def isLeap (y : ℤ) : Bool := (y % 4 == 0 && y % 100 != 0) || y % 400 == 0

/-- Number of days in year `y`. -/
def yearLen (y : ℤ) : ℕ := if isLeap y then 366 else 365

/-- `date2doy` on a single `(day, month, year)` triple: the `n < 2` branch
(lines 62-72): `floor(275*mm/9 - 30 + dd) - 2`, plus 2 for January/February,
plus 1 in a leap year after February.  For integer inputs the inner Python 2
division `275*mm/9` is itself the floor division. -/
def date2doy (dd mm yyyy : ℤ) : ℤ :=
  let doy0 := (275 * mm).fdiv 9 - 30 + dd - 2
  let doy1 := if mm < 3 then doy0 + 2 else doy0
  if isLeap yyyy ∧ 2 < mm then doy1 + 1 else doy1

/-- `date2doy` on parallel sequences: the array branch (lines 73-86) applies
the same formula elementwise. -/
def date2doyVec (dd mm yyyy : List ℤ) : List ℤ :=
  (dd.zip (mm.zip yyyy)).map fun p => date2doy p.1 p.2.1 p.2.2

/-- Length of month `m` (1-12) of the Gregorian calendar; reference data for
checking `date2doy`, not part of the source. -/
def monthLen (leap : Bool) : ℕ → ℕ
  | 1 => 31
  | 2 => if leap then 29 else 28
  | 3 => 31
  | 4 => 30
  | 5 => 31
  | 6 => 30
  | 7 => 31
  | 8 => 31
  | 9 => 30
  | 10 => 31
  | 11 => 30
  | 12 => 31
  | _ => 0

/-- Days in the months strictly before month `m`; reference data. -/
def daysInMonthsBefore (leap : Bool) (m : ℕ) : ℕ :=
  ((List.range (m - 1)).map fun k => monthLen leap (k + 1)).sum

/-- The true Gregorian day-of-year ordinal of day `d` of month `m` of year
`y`; reference definition against which `date2doy` is checked. -/
def gregDoy (d m : ℕ) (y : ℤ) : ℤ := (daysInMonthsBefore (isLeap y) m : ℤ) + d

/-- Days from January 1 of year 1 to January 1 of year `y` (proleptic
Gregorian; for `y ≥ 1` this is `datetime.date(y,1,1).toordinal() - 1`). -/
def daysBeforeYear (y : ℤ) : ℤ :=
  365 * (y - 1) + (y - 1).fdiv 4 - (y - 1).fdiv 100 + (y - 1).fdiv 400

/-- Absolute time, in seconds from January 1 of year 1, of the `datetime`
value `datetime(y,1,1) + timedelta(days=floor(t)-1, seconds=mod(t,1)*86400)`,
the construction the source uses for events (lines 217-219 and 226-228),
for the start (188-190) and for the end (193-195). -/
def dtAbs (y : ℤ) (t : ℚ) : ℚ :=
  ((daysBeforeYear y : ℚ) + ⌊t⌋ - 1) * 86400 + (t - ⌊t⌋) * 86400

/-- Seconds-of-day of the first boundary of the output grid (lines 165-177):
floor the first event's second-of-day to the interval grid, advance one
interval when `interval < 86400`, clamp at 86400. -/
def starttimeOf (dt0 : ℚ) (itv : ℤ) : ℤ :=
  let startsecond : ℚ := (dt0 - ⌊dt0⌋) * 86400
  let t0 : ℤ := ⌊startsecond / (itv : ℚ)⌋ * itv
  let t1 : ℤ := if itv < 86400 then t0 + itv else t0
  if t1 > 86400 then 86400 else t1

/-- The start boundary in `doy.fraction` units (line 178). -/
def startOf (dt0 : ℚ) (itv : ℤ) : ℚ := (starttimeOf dt0 itv : ℚ) / 86400 + ⌊dt0⌋

/-- Seconds-of-day of the last boundary (lines 181-184): the last full
interval before the last event, not advanced. -/
def endtimeOf (dtL : ℚ) (itv : ℤ) : ℤ := ⌊((dtL - ⌊dtL⌋) * 86400) / (itv : ℚ)⌋ * itv

/-- The end boundary in `doy.fraction` units (line 185). -/
def endOf (dtL : ℚ) (itv : ℤ) : ℚ := (endtimeOf dtL itv : ℚ) / 86400 + ⌊dtL⌋

/-- Absolute time of `startdate` (lines 188-190). -/
def startAbsOf (y0 : ℤ) (dt0 : ℚ) (itv : ℤ) : ℚ := dtAbs y0 (startOf dt0 itv)

/-- Absolute time of `enddate` (lines 193-195). -/
def endAbsOf (yL : ℤ) (dtL : ℚ) (itv : ℤ) : ℚ := dtAbs yL (endOf dtL itv)

/-- Walk a day offset forward year by year: from year `y` with `d` days left,
return the calendar pair (year, zero-based day inside that year).  Fuel-based
structural recursion; every caller passes enough fuel. -/
def yearSearch : ℕ → ℤ → ℕ → ℤ × ℕ
  | 0, y, d => (y, d)
  | fuel + 1, y, d => if d < yearLen y then (y, d) else yearSearch fuel (y + 1) (d - yearLen y)

/-- Calendar pair (year, zero-based day of year) of a day count (days since
January 1 of year 1); this is what `datetime.year`/`strftime("%j")` compute.
The 400-year Gregorian cycle has exactly 146097 days, so the search can jump
to year `1 + 400*(d / 146097)` and walk at most 400 years from there. -/
def civilFromDays (d : ℕ) : ℤ × ℕ :=
  yearSearch 500 (1 + 400 * ((d / 146097 : ℕ) : ℤ)) (d % 146097)

/-- One-based day of year of an absolute time (`strftime("%j")`). -/
def doyOfAbs (T : ℚ) : ℕ := (civilFromDays ((⌊T⌋.fdiv 86400).toNat)).2 + 1

/-- The row a boundary at absolute time `T` emits (lines 231-242): the
boundary's year, and its day-of-year plus second-of-day over 86400, minus one
day when `interval == 86400`. -/
def rowOf (T : ℚ) (itv : ℤ) : ℤ × ℚ :=
  let s : ℤ := ⌊T⌋
  let D : ℕ := (s.fdiv 86400).toNat
  let sec : ℤ := s % 86400
  let yd := civilFromDays D
  let dtime : ℚ := ((yd.2 + 1 : ℕ) : ℚ) + (sec : ℚ) / 86400
  (yd.1, if itv = 86400 then dtime - 1 else dtime)

/-- The aggregate appended for one bucket (lines 243-252).  After the mode
normalisation of lines 146-150 the method is `"sum"` or `"avg"`, and exactly
one of the two `if` statements of the source fires: `sum` emits the
accumulated value; `avg` emits `-9999` for an empty bucket (the source sets
`counter = 1; processedY = -9999` and divides) and the mean otherwise. -/
def emit (m : String) (acc : ℚ) (cnt : ℕ) : ℚ :=
  if m = "sum" then acc else if cnt = 0 then -9999 else acc / (cnt : ℚ)

/-- The inner event-consumption loop (lines 223-229), started from the
`checkdate` read of line 217.  While event `j`'s datetime is before the
boundary `Bd`: increment the counter, advance `j`, rebuild `checkdate` from
`yyyy[j]`/`doytime[j]` and add `X[j]` — note the source adds the value at the
*advanced* index.  Any of those reads falling past the end of its list is the
unguarded `IndexError` of the source, modelled as `none`.  The caller passes
fuel `doytime.length + 1`, which the progress of `j` can never exhaust. -/
def consume (yrs : List ℤ) (dts : List ℚ) (X : List ℚ) (Bd : ℚ) :
    ℕ → ℕ → ℚ → ℕ → Option (ℕ × ℚ × ℕ)
  | 0, _, _, _ => none
  | fuel + 1, j, acc, cnt =>
    match yrs.get? j, dts.get? j with
    | some y, some dt =>
      if dtAbs y dt < Bd then
        match yrs.get? (j + 1), dts.get? (j + 1), X.get? (j + 1) with
        | some _, some _, some x => consume yrs dts X Bd fuel (j + 1) (acc + x) (cnt + 1)
        | _, _, _ => none
      else some (j, acc, cnt)
    | _, _ => none

/-- The outer sweep loop (lines 214-255): while the cursor is before the end
boundary, advance it by one interval, consume the events before the new
boundary, and append the boundary's year, its `doy.fraction` timestamp and
the bucket's aggregate.  Fuel-based; `event2time` passes enough fuel for the
cursor to reach the end boundary. -/
def sweep (yrs : List ℤ) (dts : List ℚ) (X : List ℚ) (m : String) (itv : ℤ) (eA : ℚ) :
    ℕ → ℚ → ℕ → List ℤ → List ℚ → List ℚ → Option (List ℤ × List ℚ × List ℚ)
  | 0, cur, _, A, B, C => if cur < eA then none else some (A, B, C)
  | fuel + 1, cur, j, A, B, C =>
    if cur < eA then
      let Bd : ℚ := cur + (itv : ℚ)
      match consume yrs dts X Bd (dts.length + 1) j 0 0 with
      | some (j', acc, cnt) =>
        sweep yrs dts X m itv eA fuel Bd j'
          (A ++ [(rowOf Bd itv).1]) (B ++ [(rowOf Bd itv).2]) (C ++ [emit m acc cnt])
      | none => none
    else some (A, B, C)

/-- `event2time` (lines 90-263).  Mode normalisation (146-150), default and
clamped interval (152-160), boundary computation (162-195), then the sweep
from the start boundary with event index 0 and empty output lists.  A
non-positive interval is a Python `ZeroDivisionError` (interval 0) or a
non-terminating loop (negative), both modelled `none`; an empty input fails
its first subscript. -/
def event2time (yyyy : List ℤ) (doytime : List ℚ) (X : List ℚ)
    (method : String) (interval : Option ℤ) : Option (List ℤ × List ℚ × List ℚ) :=
  let m := if method ≠ "sum" ∧ method ≠ "avg" then "sum" else method
  let itv0 := interval.getD 1800
  let itv := if itv0 > 86400 then 86400 else itv0
  if itv ≤ 0 then none
  else
    match yyyy.get? 0, doytime.get? 0,
        yyyy.get? (yyyy.length - 1), doytime.get? (doytime.length - 1) with
    | some y0, some dt0, some yL, some dtL =>
      let sA := startAbsOf y0 dt0 itv
      let eA := endAbsOf yL dtL itv
      sweep yyyy doytime X m itv eA ((⌈(eA - sA) / (itv : ℚ)⌉).toNat + 1) sA 0 [] [] []
    | _, _, _, _ => none

/-- Absolute time of event `k` of the input (out-of-range indices read the
defaults; the lemmas below only use in-range indices). -/
def timeAt (yrs : List ℤ) (dts : List ℚ) (k : ℕ) : ℚ := dtAbs (yrs.getD k 0) (dts.getD k 0)

/-- Number of events whose absolute time is strictly below `b`. -/
def cnsm (yrs : List ℤ) (dts : List ℚ) (b : ℚ) : ℕ :=
  ((Finset.range dts.length).filter fun k => timeAt yrs dts k < b).card

/-- The input's events are ascending in absolute time (the precondition the
source assumes, spec §3), phrased on adjacent pairs so that it is decidable
on concrete inputs. -/
@[reducible] def Ascending (yrs : List ℤ) (dts : List ℚ) : Prop :=
  ∀ i, i < dts.length - 1 → timeAt yrs dts i ≤ timeAt yrs dts (i + 1)

/-- The sum the specification's conservation law talks about: the input
values whose own timestamps fall in the half-open window from the start
boundary to the end boundary.  Modelled from the spec (§8, "the sum of input
values whose timestamps fall within `[start, end)`"), for comparison with
what the code computes. -/
def windowSum (yrs : List ℤ) (dts : List ℚ) (X : List ℚ) (itv : ℤ) : ℚ :=
  ∑ k in (Finset.range dts.length).filter (fun k =>
      startAbsOf (yrs.getD 0 0) (dts.getD 0 0) itv ≤ timeAt yrs dts k ∧
      timeAt yrs dts k < endAbsOf (yrs.getD (yrs.length - 1) 0) (dts.getD (dts.length - 1) 0) itv),
    X.getD k 0

/-- Sum of the values `X[k+1]` for `k` in the index window `[a, b)`: the
values the inner loop accumulates when it consumes events `a, …, b-1`. -/
def winSum (X : List ℚ) (a b : ℕ) : ℚ := ∑ k in Finset.Ico a b, X.getD (k + 1) 0

/-- The trajectory of the event pointer `j` of a sweep that starts at cursor
`cur` with pointer `j`: before bucket 0 it is `j`, and after bucket `i - 1`
(equivalently, before bucket `i`) it is the number of events strictly before
the boundary `cur + i * interval`. -/
def ptr (yrs : List ℤ) (dts : List ℚ) (cur : ℚ) (itv : ℤ) (j : ℕ) : ℕ → ℕ
  | 0 => j
  | i + 1 => cnsm yrs dts (cur + ((i + 1 : ℕ) : ℚ) * (itv : ℚ))

/-! ## Basic arithmetic lemmas -/

theorem dtAbs_eq (y : ℤ) (t : ℚ) :
    dtAbs y t = ((daysBeforeYear y : ℚ) - 1) * 86400 + t * 86400 := by
  unfold dtAbs; ring

theorem sub_floor_nonneg (t : ℚ) : 0 ≤ t - ⌊t⌋ := by
  have := Int.floor_le t; linarith

theorem sub_floor_lt_one (t : ℚ) : t - ⌊t⌋ < 1 := by
  have := Int.lt_floor_add_one t; linarith

theorem floor_div_mul_le (x : ℚ) {itv : ℤ} (h : 0 < itv) :
    ((⌊x / (itv : ℚ)⌋ * itv : ℤ) : ℚ) ≤ x := by
  have hpos : (0 : ℚ) < (itv : ℚ) := by exact_mod_cast h
  have h1 : ((⌊x / (itv : ℚ)⌋ : ℚ)) ≤ x / itv := Int.floor_le _
  have h2 := mul_le_mul_of_nonneg_right h1 hpos.le
  rw [div_mul_cancel₀ _ hpos.ne'] at h2
  push_cast
  exact h2

theorem floor_div_nonneg {x : ℚ} {itv : ℤ} (hx : 0 ≤ x) (h : 0 < itv) :
    0 ≤ ⌊x / (itv : ℚ)⌋ := by
  have hpos : (0 : ℚ) < (itv : ℚ) := by exact_mod_cast h
  exact Int.floor_nonneg.mpr (div_nonneg hx hpos.le)

/-- The seconds-of-day of the first event, `(dt0 - ⌊dt0⌋) * 86400`, lies in
`[0, 86400)`. -/
theorem startsecond_bounds (dt0 : ℚ) :
    0 ≤ (dt0 - ⌊dt0⌋) * 86400 ∧ (dt0 - ⌊dt0⌋) * 86400 < 86400 := by
  constructor
  · have := sub_floor_nonneg dt0; linarith
  · have := sub_floor_lt_one dt0; linarith

/-- `endtimeOf` never exceeds the second-of-day it floors, hence stays below
86400, and is nonnegative. -/
theorem endtimeOf_bounds (dtL : ℚ) {itv : ℤ} (h : 0 < itv) :
    0 ≤ endtimeOf dtL itv ∧ ((endtimeOf dtL itv : ℚ) ≤ (dtL - ⌊dtL⌋) * 86400 ∧
      endtimeOf dtL itv < 86400) := by
  obtain ⟨hs0, hs1⟩ := startsecond_bounds dtL
  have hle : ((endtimeOf dtL itv : ℚ)) ≤ (dtL - ⌊dtL⌋) * 86400 := by
    unfold endtimeOf; exact_mod_cast floor_div_mul_le _ h
  refine ⟨?_, hle, ?_⟩
  · unfold endtimeOf
    exact mul_nonneg (floor_div_nonneg hs0 h) h.le
  · have : ((endtimeOf dtL itv : ℚ)) < 86400 := lt_of_le_of_lt hle hs1
    exact_mod_cast this

/-- When `interval = 86400` the start boundary is the first event's midnight:
the grid floor of a second-of-day by 86400 is 0 and no advance happens. -/
theorem starttimeOf_86400 (dt0 : ℚ) : starttimeOf dt0 86400 = 0 := by
  unfold starttimeOf
  have h0 : ⌊(dt0 - ⌊dt0⌋) * 86400 / ((86400 : ℤ) : ℚ)⌋ = 0 := by
    obtain ⟨hs0, hs1⟩ := startsecond_bounds dt0
    rw [Int.floor_eq_zero_iff]
    constructor
    · positivity
    · rw [div_lt_one (by norm_num)]
      push_cast
      linarith
  simp [h0]

/-- `starttimeOf` restated through `endtimeOf` (the un-advanced grid floor is
the same computation for the first and the last event). -/
theorem starttimeOf_def (dt0 : ℚ) (itv : ℤ) :
    starttimeOf dt0 itv =
      if (if itv < 86400 then endtimeOf dt0 itv + itv else endtimeOf dt0 itv) > 86400
      then 86400 else (if itv < 86400 then endtimeOf dt0 itv + itv else endtimeOf dt0 itv) := rfl

/-- The start boundary's second-of-day never exceeds 86400 (clamping). -/
theorem starttimeOf_le (dt0 : ℚ) {itv : ℤ} (h : 0 < itv) :
    starttimeOf dt0 itv ≤ 86400 := by
  obtain ⟨he0, -, he2⟩ := endtimeOf_bounds dt0 h
  rw [starttimeOf_def]
  by_cases hlt : itv < 86400 <;> simp only [hlt, if_true, if_false] <;> split <;> omega

/-- With `interval < 86400` the start boundary is strictly above the end
boundary of the same `doytime` value; with `interval = 86400` they agree.
(This is the single-event geometry behind the empty output.) -/
theorem endtime_lt_starttime (dt : ℚ) {itv : ℤ} (h1 : 1 ≤ itv) :
    (itv < 86400 → endtimeOf dt itv < starttimeOf dt itv) ∧
    (itv = 86400 → starttimeOf dt itv = endtimeOf dt itv) := by
  have hpos : 0 < itv := h1
  obtain ⟨he0, -, he2⟩ := endtimeOf_bounds dt hpos
  constructor
  · intro hlt
    rw [starttimeOf_def]
    simp only [hlt, if_true]
    split <;> omega
  · intro he
    subst he
    rw [starttimeOf_86400]
    unfold endtimeOf
    have h0 : ⌊(dt - ⌊dt⌋) * 86400 / ((86400 : ℤ) : ℚ)⌋ = 0 := by
      obtain ⟨hs0, hs1⟩ := startsecond_bounds dt
      rw [Int.floor_eq_zero_iff]
      constructor
      · positivity
      · rw [div_lt_one (by norm_num)]
        push_cast
        linarith
    simp [h0]

theorem div_add_int_mul (a b : ℤ) : (((a : ℚ)) / 86400 + (b : ℚ)) * 86400 = a + b * 86400 := by
  field_simp

/-- For a single-event input the start boundary is never before the end
boundary, so the sweep loop has nothing to do. -/
theorem startAbs_not_lt_endAbs_single (y : ℤ) (dt : ℚ) {itv : ℤ} (h1 : 1 ≤ itv)
    (h2 : itv ≤ 86400) : ¬ startAbsOf y dt itv < endAbsOf y dt itv := by
  obtain ⟨hlt, heq⟩ := endtime_lt_starttime dt h1
  unfold startAbsOf endAbsOf startOf endOf
  rw [dtAbs_eq, dtAbs_eq, div_add_int_mul, div_add_int_mul]
  intro hcon
  have hse : ((endtimeOf dt itv : ℚ)) ≤ (starttimeOf dt itv : ℚ) := by
    by_cases hc : itv < 86400
    · exact_mod_cast (hlt hc).le
    · have : itv = 86400 := by omega
      exact_mod_cast (heq this).ge
  linarith

/-- C10: a single-event input produces three empty output sequences: for
`interval < 86400` the start boundary strictly exceeds the end boundary, for
`interval = 86400` they coincide, so the sweep loop body never runs. -/
theorem event2time_single_event_empty (y : ℤ) (dt x : ℚ) (method : String) (itv : ℤ)
    (h1 : 1 ≤ itv) :
    event2time [y] [dt] [x] method (some itv) = some ([], [], []) ∧
    (itv < 86400 → endOf dt itv < startOf dt itv) ∧
    (itv = 86400 → startOf dt itv = endOf dt itv) := by
  obtain ⟨hlt, heq⟩ := endtime_lt_starttime dt h1
  refine ⟨?_, fun hc => ?_, fun hc => ?_⟩
  · by_cases hbig : (86400 : ℤ) < itv
    · have key := startAbs_not_lt_endAbs_single y dt (show (1:ℤ) ≤ 86400 by norm_num)
        (show (86400:ℤ) ≤ 86400 by norm_num)
      simp only [event2time, Option.getD_some, gt_iff_lt, if_pos hbig, List.length_cons,
        List.length_nil, Nat.sub_self, List.get?_cons_zero, sweep, if_neg key]
      norm_num
    · have key := startAbs_not_lt_endAbs_single y dt h1 (by omega)
      simp only [event2time, Option.getD_some, gt_iff_lt, if_neg hbig, List.length_cons,
        List.length_nil, Nat.sub_self, List.get?_cons_zero, sweep, if_neg key]
      norm_num
      omega
  · have hq : ((endtimeOf dt itv : ℚ)) < (starttimeOf dt itv : ℚ) := by exact_mod_cast hlt hc
    unfold startOf endOf
    linarith
  · have hq : ((starttimeOf dt itv : ℚ)) = (endtimeOf dt itv : ℚ) := by exact_mod_cast heq hc
    unfold startOf endOf
    rw [hq]

/-- C10 witness: the single event `(2008, 153.25, 5)` at the default-like
interval 1800 yields empty output, with the boundary inequality strict. -/
theorem event2time_single_event_empty_witness :
    event2time [2008] [(613:ℚ)/4] [5] "avg" (some 1800) = some ([], [], []) ∧
    ((1800:ℤ) < 86400 → endOf ((613:ℚ)/4) 1800 < startOf ((613:ℚ)/4) 1800) ∧
    ((1800:ℤ) = 86400 → startOf ((613:ℚ)/4) 1800 = endOf ((613:ℚ)/4) 1800) :=
  event2time_single_event_empty 2008 ((613:ℚ)/4) 5 "avg" 1800 (by norm_num)

/-- C8: an unknown mode behaves exactly like `"sum"`, an interval above 86400
behaves exactly like 86400, and a computed start boundary past midnight is
clamped to 86400; none of these aborts the computation. -/
theorem event2time_normalizes (yyyy : List ℤ) (doytime X : List ℚ) (method : String)
    (interval : Option ℤ) :
    (method ≠ "sum" → method ≠ "avg" →
      event2time yyyy doytime X method interval = event2time yyyy doytime X "sum" interval) ∧
    (∀ i : ℤ, 86400 < i →
      event2time yyyy doytime X method (some i) = event2time yyyy doytime X method (some 86400)) ∧
    (∀ dt0 : ℚ, ∀ i : ℤ, 0 < i → starttimeOf dt0 i ≤ 86400 ∧
      ((if i < 86400 then endtimeOf dt0 i + i else endtimeOf dt0 i) > 86400 →
        starttimeOf dt0 i = 86400)) := by
  refine ⟨fun h1 h2 => ?_, fun i hi => ?_, fun dt0 i hi => ⟨starttimeOf_le dt0 hi, fun hcl => ?_⟩⟩
  · simp only [event2time, ne_eq, if_pos (show ¬method = "sum" ∧ ¬method = "avg" from ⟨h1, h2⟩)]
    norm_num
  · simp only [event2time, Option.getD_some, gt_iff_lt, if_pos hi]
    norm_num
  · rw [starttimeOf_def, if_pos hcl]

/-- C8 witness: the unknown mode `"xyz"` behaves as `"sum"`, interval 999999
behaves as 86400, and a raw boundary of 86401 seconds is clamped. -/
theorem event2time_normalizes_witness :
    (event2time [2008] [(613:ℚ)/4] [5] "xyz" (some 1800) =
      event2time [2008] [(613:ℚ)/4] [5] "sum" (some 1800)) ∧
    (event2time [2008] [(613:ℚ)/4] [5] "sum" (some 999999) =
      event2time [2008] [(613:ℚ)/4] [5] "sum" (some 86400)) ∧
    (starttimeOf ((613:ℚ)/4) 86399 ≤ 86400 ∧
      ((if (86399:ℤ) < 86400 then endtimeOf ((613:ℚ)/4) 86399 + 86399
        else endtimeOf ((613:ℚ)/4) 86399) > 86400 →
        starttimeOf ((613:ℚ)/4) 86399 = 86400)) := by
  refine ⟨?_, ?_, ?_⟩
  · exact (event2time_normalizes [2008] [(613:ℚ)/4] [5] "xyz" (some 1800)).1
      (by decide) (by decide)
  · exact (event2time_normalizes [2008] [(613:ℚ)/4] [5] "sum" (some 999999)).2.1
      999999 (by norm_num)
  · exact (event2time_normalizes [2008] [(613:ℚ)/4] [5] "sum" none).2.2
      ((613:ℚ)/4) 86399 (by norm_num)

/-! ## Calendar lemmas -/

theorem isLeap_iff (y : ℤ) : isLeap y = true ↔ (y % 4 = 0 ∧ y % 100 ≠ 0) ∨ y % 400 = 0 := by
  simp [isLeap, Bool.or_eq_true, Bool.and_eq_true, beq_iff_eq, bne_iff_ne]

theorem daysBeforeYear_ediv (y : ℤ) :
    daysBeforeYear y = 365 * (y - 1) + (y - 1) / 4 - (y - 1) / 100 + (y - 1) / 400 := by
  unfold daysBeforeYear
  rw [Int.fdiv_eq_ediv _ (by norm_num), Int.fdiv_eq_ediv _ (by norm_num),
    Int.fdiv_eq_ediv _ (by norm_num)]

theorem yearLen_bounds (y : ℤ) : 365 ≤ yearLen y ∧ yearLen y ≤ 366 := by
  unfold yearLen; split <;> omega

theorem daysBeforeYear_succ (y : ℤ) :
    daysBeforeYear (y + 1) = daysBeforeYear y + yearLen y := by
  rw [daysBeforeYear_ediv, daysBeforeYear_ediv]
  unfold yearLen
  by_cases hl : isLeap y = true
  · obtain h | h := (isLeap_iff y).mp hl
    · rw [if_pos hl]; omega
    · rw [if_pos hl]; omega
  · have hn := mt (isLeap_iff y).mpr hl
    push_neg at hn
    rw [if_neg hl]
    omega

theorem daysBeforeYear_add_nat (y : ℤ) : ∀ k : ℕ,
    daysBeforeYear (y + k) = daysBeforeYear y + ∑ i in Finset.range k, (yearLen (y + i) : ℤ)
  | 0 => by simp
  | k + 1 => by
    have := daysBeforeYear_add_nat y k
    push_cast
    rw [show y + ((k : ℤ) + 1) = (y + k) + 1 by ring, daysBeforeYear_succ,
      Finset.sum_range_succ, this]
    ring

theorem daysBeforeYear_le_add (y : ℤ) (k : ℕ) :
    daysBeforeYear y ≤ daysBeforeYear (y + k) := by
  rw [daysBeforeYear_add_nat]
  have : 0 ≤ ∑ i in Finset.range k, (yearLen (y + i) : ℤ) :=
    Finset.sum_nonneg fun i _ => by positivity
  omega

theorem daysBeforeYear_cycle (y : ℤ) :
    daysBeforeYear (y + 400) = daysBeforeYear y + 146097 := by
  rw [daysBeforeYear_ediv, daysBeforeYear_ediv]
  omega

theorem daysBeforeYear_cycle_mul (y : ℤ) : ∀ q : ℕ,
    daysBeforeYear (y + 400 * q) = daysBeforeYear y + 146097 * q
  | 0 => by simp
  | q + 1 => by
    have := daysBeforeYear_cycle_mul y q
    rw [show y + 400 * ((q : ℕ) + 1 : ℕ) = (y + 400 * q) + 400 by push_cast; ring,
      daysBeforeYear_cycle, this]
    push_cast
    ring

theorem daysBeforeYear_nonneg {y : ℤ} (h : 1 ≤ y) : 0 ≤ daysBeforeYear y := by
  rw [daysBeforeYear_ediv]
  omega

/-- Correctness of the year-walk: starting at year `y0` with an offset that is
exactly the gap to year `y0 + k` plus a day index inside that year, the walk
lands on `(y0 + k, d)`, provided it has at least `k` fuel. -/
theorem yearSearch_exact : ∀ (k fuel : ℕ) (y0 : ℤ) (d : ℕ), k ≤ fuel →
    d < yearLen (y0 + k) →
    yearSearch fuel y0 ((daysBeforeYear (y0 + k) - daysBeforeYear y0).toNat + d) = (y0 + k, d)
  | 0, fuel, y0, d, _, hd => by
    simp only [Nat.cast_zero, add_zero] at hd ⊢
    simp only [sub_self, Int.toNat_zero, zero_add]
    cases fuel with
    | zero => rfl
    | succ fuel => simp [yearSearch, hd]
  | k + 1, fuel, y0, d, hk, hd => by
    cases fuel with
    | zero => omega
    | succ fuel =>
      have hy1 : y0 + ((k : ℕ) + 1 : ℕ) = (y0 + 1) + (k : ℕ) := by push_cast; ring
      have hgap : daysBeforeYear (y0 + (k + 1 : ℕ)) - daysBeforeYear y0 =
          yearLen y0 + (daysBeforeYear ((y0 + 1) + (k : ℕ)) - daysBeforeYear (y0 + 1)) := by
        rw [hy1]
        have hstep : daysBeforeYear (y0 + 1) = daysBeforeYear y0 + yearLen y0 :=
          daysBeforeYear_succ y0
        omega
      have hge : daysBeforeYear (y0 + 1) ≤ daysBeforeYear ((y0 + 1) + (k : ℕ)) :=
        daysBeforeYear_le_add (y0 + 1) k
      have harg : (daysBeforeYear (y0 + (k + 1 : ℕ)) - daysBeforeYear y0).toNat + d =
          yearLen y0 +
            ((daysBeforeYear ((y0 + 1) + (k : ℕ)) - daysBeforeYear (y0 + 1)).toNat + d) := by
        omega
      have hnl : ¬ (yearLen y0 +
          ((daysBeforeYear ((y0 + 1) + (k : ℕ)) - daysBeforeYear (y0 + 1)).toNat + d)
            < yearLen y0) := by omega
      rw [harg]
      simp only [yearSearch, if_neg hnl]
      rw [Nat.add_sub_cancel_left]
      have hd' : d < yearLen ((y0 + 1) + (k : ℕ)) := by rw [← hy1]; exact_mod_cast hd
      rw [yearSearch_exact k fuel (y0 + 1) d (by omega) hd', ← hy1]

/-- Correctness of `civilFromDays` on every day count that decomposes as a
year start plus an in-year day index. -/
theorem civilFromDays_exact (y : ℤ) (d : ℕ) (hy : 1 ≤ y) (hd : d < yearLen y) :
    civilFromDays ((daysBeforeYear y).toNat + d) = (y, d) := by
  have h365 := yearLen_bounds y
  -- decompose `y - 1 = 400 * q + r`
  set q : ℕ := ((y - 1) / 400).toNat with hq
  set r : ℕ := ((y - 1) % 400).toNat with hr
  have hy400 : y = 1 + 400 * (q : ℤ) + (r : ℤ) ∧ (r : ℤ) < 400 := by
    constructor
    · have h1 : (y - 1) % 400 = y - 1 - 400 * ((y - 1) / 400) := by omega
      omega
    · omega
  have hsplit : daysBeforeYear y = 146097 * (q : ℤ) + daysBeforeYear (1 + r) := by
    have := daysBeforeYear_cycle_mul (1 + (r : ℕ)) q
    rw [show (1 + (r:ℕ) : ℤ) + 400 * (q:ℕ) = 1 + 400 * (q:ℤ) + (r:ℤ) by ring] at this
    rw [hy400.1, this]
    ring
  have hrem_lt : daysBeforeYear (1 + r) + d < 146097 := by
    rw [daysBeforeYear_ediv]
    have hr400 : (r : ℤ) < 400 := hy400.2
    omega
  have hrem_nonneg : 0 ≤ daysBeforeYear (1 + r) := daysBeforeYear_nonneg (by omega)
  -- the jump lands on year `1 + 400*q` with remainder `daysBeforeYear (1+r) + d`
  have hD : (daysBeforeYear y).toNat + d =
      146097 * q + ((daysBeforeYear (1 + r)).toNat + d) := by
    have h0 : 0 ≤ daysBeforeYear y := daysBeforeYear_nonneg hy
    omega
  have hdiv : ((daysBeforeYear y).toNat + d) / 146097 = q := by
    rw [hD]
    have hlt : (daysBeforeYear (1 + r)).toNat + d < 146097 := by omega
    rw [Nat.mul_add_div (by norm_num), Nat.div_eq_of_lt hlt]
    omega
  have hmod : ((daysBeforeYear y).toNat + d) % 146097 = (daysBeforeYear (1 + r)).toNat + d := by
    rw [hD]
    have hlt : (daysBeforeYear (1 + r)).toNat + d < 146097 := by omega
    rw [Nat.mul_add_mod, Nat.mod_eq_of_lt hlt]
  unfold civilFromDays
  rw [hdiv, hmod]
  have hgap : (daysBeforeYear (1 + r)).toNat + d =
      (daysBeforeYear ((1 + 400 * (q:ℤ)) + (r : ℕ)) - daysBeforeYear (1 + 400 * (q:ℤ))).toNat
        + d := by
    have hc1 := daysBeforeYear_cycle_mul (1 + (r : ℕ)) q
    have hc2 := daysBeforeYear_cycle_mul 1 q
    have h1 : daysBeforeYear ((1 : ℤ) + 400 * (q:ℕ)) = daysBeforeYear 1 + 146097 * q := hc2
    have hone : daysBeforeYear 1 = 0 := by rw [daysBeforeYear_ediv]; norm_num
    rw [show ((1 + 400 * (q:ℤ)) + (r : ℕ) : ℤ) = (1 + (r:ℕ) : ℤ) + 400 * (q:ℕ) by
      ring, hc1, h1, hone]
    omega
  rw [hgap, yearSearch_exact r 500 (1 + 400 * (q:ℤ)) d (by omega)
    (by rw [show ((1 + 400 * (q:ℤ)) + (r : ℕ) : ℤ) = y from by omega]
        exact hd)]
  rw [show ((1 + 400 * (q:ℤ)) + (r : ℕ) : ℤ) = y from by omega]

theorem yearSearch_snd_lt : ∀ (fuel : ℕ) (y : ℤ) (d : ℕ), d ≤ 365 * fuel →
    (yearSearch fuel y d).2 < yearLen (yearSearch fuel y d).1
  | 0, y, d, h => by
    have := (yearLen_bounds y).1
    simp only [yearSearch]
    omega
  | fuel + 1, y, d, h => by
    by_cases hd : d < yearLen y
    · simp [yearSearch, hd]
    · have h365 := (yearLen_bounds y).1
      simp only [yearSearch, if_neg hd]
      exact yearSearch_snd_lt fuel (y + 1) (d - yearLen y) (by omega)

theorem civilFromDays_snd_lt (d : ℕ) :
    (civilFromDays d).2 < yearLen (civilFromDays d).1 := by
  unfold civilFromDays
  have hm : d % 146097 < 146097 := Nat.mod_lt d (by norm_num)
  exact yearSearch_snd_lt 500 _ _ (by omega)

/-- Every row timestamp lies in `[0, 367)`, and in `[1, 367)` unless the
interval is the full day (whose one-day subtraction can reach exactly 0). -/
theorem rowOf_snd_bounds (T : ℚ) (itv : ℤ) :
    0 ≤ (rowOf T itv).2 ∧ (rowOf T itv).2 < 367 ∧ (itv ≠ 86400 → 1 ≤ (rowOf T itv).2) := by
  have hlt := civilFromDays_snd_lt ((⌊T⌋.fdiv 86400).toNat)
  have h366 := (yearLen_bounds (civilFromDays ((⌊T⌋.fdiv 86400).toNat)).1).2
  have hsec0 : 0 ≤ ⌊T⌋ % 86400 := Int.emod_nonneg _ (by norm_num)
  have hsec1 : ⌊T⌋ % 86400 < 86400 := Int.emod_lt_of_pos _ (by norm_num)
  have hd1 : (1:ℚ) ≤ (((civilFromDays ((⌊T⌋.fdiv 86400).toNat)).2 + 1 : ℕ) : ℚ) := by
    exact_mod_cast Nat.one_le_iff_ne_zero.mpr (Nat.succ_ne_zero _)
  have hd2 : (((civilFromDays ((⌊T⌋.fdiv 86400).toNat)).2 + 1 : ℕ) : ℚ) ≤ 366 := by
    exact_mod_cast (by omega : (civilFromDays ((⌊T⌋.fdiv 86400).toNat)).2 + 1 ≤ 366)
  have hq0 : (0:ℚ) ≤ ((⌊T⌋ % 86400 : ℤ) : ℚ) / 86400 := by
    have : (0:ℚ) ≤ ((⌊T⌋ % 86400 : ℤ) : ℚ) := by exact_mod_cast hsec0
    positivity
  have hq1 : ((⌊T⌋ % 86400 : ℤ) : ℚ) / 86400 < 1 := by
    rw [div_lt_one (by norm_num)]
    exact_mod_cast hsec1
  by_cases hi : itv = 86400
  · simp only [rowOf, hi, ite_true]
    exact ⟨by linarith, by linarith, fun hne => absurd rfl hne⟩
  · simp only [rowOf, if_neg hi]
    exact ⟨by linarith, by linarith, fun _ => by linarith⟩

/-- Feeding a valid `(year, doy.fraction)` timestamp with whole-second
fraction through the absolute-time map and back through the row conversion is
the identity (the `interval < 86400` case, where no day is subtracted). -/
theorem rowOf_roundTrip (y : ℤ) (t : ℚ) (itv s : ℤ) (hy : 1 ≤ y) (ht1 : 1 ≤ ⌊t⌋)
    (ht2 : ⌊t⌋ ≤ yearLen y) (hs : t * 86400 = (s : ℚ)) (hi : itv ≠ 86400) :
    rowOf (dtAbs y t) itv = (y, t) := by
  have habs : dtAbs y t = (((daysBeforeYear y - 1) * 86400 + s : ℤ) : ℚ) := by
    rw [dtAbs_eq]
    push_cast
    rw [← hs]
  have hfloor : ⌊dtAbs y t⌋ = (daysBeforeYear y - 1) * 86400 + s := by
    rw [habs, Int.floor_intCast]
  have hfs0q : (0:ℚ) ≤ (s : ℚ) - ⌊t⌋ * 86400 := by
    have h := mul_nonneg (sub_floor_nonneg t) (by norm_num : (0:ℚ) ≤ 86400)
    rw [sub_mul, hs] at h
    linarith
  have hfs1q : (s : ℚ) - ⌊t⌋ * 86400 < 86400 := by
    have h := (startsecond_bounds t).2
    rw [sub_mul, hs] at h
    linarith
  have hfs0 : (0:ℤ) ≤ s - ⌊t⌋ * 86400 := by exact_mod_cast hfs0q
  have hfs1 : s - ⌊t⌋ * 86400 < 86400 := by exact_mod_cast hfs1q
  have hfd : ((daysBeforeYear y - 1) * 86400 + s).fdiv 86400 = daysBeforeYear y + ⌊t⌋ - 1 := by
    rw [Int.fdiv_eq_ediv _ (by norm_num)]
    omega
  have hmd : ((daysBeforeYear y - 1) * 86400 + s) % 86400 = s - ⌊t⌋ * 86400 := by
    rw [show (daysBeforeYear y - 1) * 86400 + s =
      (s - ⌊t⌋ * 86400) + 86400 * (daysBeforeYear y + ⌊t⌋ - 1) by ring,
      Int.add_mul_emod_self_left, Int.emod_eq_of_lt hfs0 hfs1]
  have hdby := daysBeforeYear_nonneg hy
  have htN : (daysBeforeYear y + ⌊t⌋ - 1).toNat = (daysBeforeYear y).toNat + (⌊t⌋ - 1).toNat := by
    omega
  have hciv : civilFromDays ((daysBeforeYear y).toNat + (⌊t⌋ - 1).toNat) = (y, (⌊t⌋ - 1).toNat) :=
    civilFromDays_exact y _ hy (by omega)
  simp only [rowOf, hfloor, hfd, hmd, htN, hciv, if_neg hi, Prod.mk.injEq, true_and]
  have hcast : (((⌊t⌋ - 1).toNat + 1 : ℕ) : ℚ) = (⌊t⌋ : ℚ) := by
    have h1 : (((⌊t⌋ - 1).toNat + 1 : ℕ) : ℤ) = ⌊t⌋ := by omega
    exact_mod_cast h1
  rw [hcast]
  have : ((s - ⌊t⌋ * 86400 : ℤ) : ℚ) = t * 86400 - ⌊t⌋ * 86400 := by
    push_cast
    rw [← hs]
  rw [this]
  field_simp

/-- At an exact midnight with `interval = 86400`, the emitted timestamp is
the boundary's day of year minus one. -/
theorem rowOf_daily (M : ℤ) :
    (rowOf ((M * 86400 : ℤ) : ℚ) 86400).2 = (doyOfAbs ((M * 86400 : ℤ) : ℚ) : ℚ) - 1 := by
  have hfl : ⌊((M * 86400 : ℤ) : ℚ)⌋ = M * 86400 := Int.floor_intCast _
  have hfd : (M * 86400 : ℤ).fdiv 86400 = M := Int.mul_fdiv_cancel _ (by norm_num)
  have hmd : (M * 86400 : ℤ) % 86400 = 0 := by
    rw [mul_comm]
    exact Int.mul_emod_right 86400 M
  simp only [rowOf, doyOfAbs, hfl, hfd, hmd, if_pos rfl, ite_true]
  push_cast
  ring

/-- For `interval ≠ 86400` the integer part of the emitted timestamp is the
boundary's day of year unmodified. -/
theorem rowOf_floor (T : ℚ) (itv : ℤ) (hi : itv ≠ 86400) :
    ⌊(rowOf T itv).2⌋ = (doyOfAbs T : ℤ) := by
  have hsec0 : 0 ≤ ⌊T⌋ % 86400 := Int.emod_nonneg _ (by norm_num)
  have hsec1 : ⌊T⌋ % 86400 < 86400 := Int.emod_lt_of_pos _ (by norm_num)
  have hq0 : (0:ℚ) ≤ ((⌊T⌋ % 86400 : ℤ) : ℚ) / 86400 := by
    have : (0:ℚ) ≤ ((⌊T⌋ % 86400 : ℤ) : ℚ) := by exact_mod_cast hsec0
    positivity
  have hq1 : ((⌊T⌋ % 86400 : ℤ) : ℚ) / 86400 < 1 := by
    rw [div_lt_one (by norm_num)]
    exact_mod_cast hsec1
  simp only [rowOf, doyOfAbs, if_neg hi]
  rw [add_comm, Int.floor_add_nat, Int.floor_eq_zero_iff.mpr ⟨hq0, hq1⟩]
  push_cast
  ring

/-- Adjacent ascent extends to any pair of in-range indices. -/
theorem ascending_le {yrs : List ℤ} {dts : List ℚ} (hasc : Ascending yrs dts) :
    ∀ i j : ℕ, i ≤ j → j < dts.length → timeAt yrs dts i ≤ timeAt yrs dts j := by
  intro i j hij hj
  induction j with
  | zero =>
    have : i = 0 := by omega
    subst this
    exact le_refl _
  | succ j ih =>
    rcases Nat.eq_or_lt_of_le hij with rfl | hlt
    · exact le_refl _
    · have h1 : timeAt yrs dts i ≤ timeAt yrs dts j := ih (by omega) (by omega)
      have h2 : timeAt yrs dts j ≤ timeAt yrs dts (j + 1) := hasc j (by omega)
      exact le_trans h1 h2

/-! ## The inner consumption loop -/

theorem getD_of_get? {α : Type} {l : List α} {j : ℕ} {a : α} (d : α) (h : l.get? j = some a) :
    l.getD j d = a := by
  rw [List.getD_eq_getElem?_getD, ← List.get?_eq_getElem?, h]
  rfl

theorem lt_length_of_get? {α : Type} {l : List α} {j : ℕ} {a : α} (h : l.get? j = some a) :
    j < l.length := by
  obtain ⟨hlt, -⟩ := List.get?_eq_some.mp h
  exact hlt

theorem timeAt_of_get? {yrs : List ℤ} {dts : List ℚ} {j : ℕ} {y : ℤ} {dt : ℚ}
    (hy : yrs.get? j = some y) (hd : dts.get? j = some dt) :
    timeAt yrs dts j = dtAbs y dt := by
  unfold timeAt
  rw [getD_of_get? 0 hy, getD_of_get? 0 hd]

/-- What a successful run of the inner loop `consume` returns: the pointer
advances to the first event at or past the boundary, every event passed over
is strictly before the boundary, the accumulator gains the values at the
successor positions of the consumed events, and the counter gains the number
of consumed events. -/
theorem consume_spec {yrs : List ℤ} {dts : List ℚ} {X : List ℚ} {Bd : ℚ}
    (hl1 : yrs.length = dts.length) (hl2 : X.length = dts.length) :
    ∀ (fuel j : ℕ) (acc : ℚ) (cnt : ℕ) (out : ℕ × ℚ × ℕ),
      consume yrs dts X Bd fuel j acc cnt = some out →
      j ≤ out.1 ∧ out.1 < dts.length ∧
      (∀ k, j ≤ k → k < out.1 → timeAt yrs dts k < Bd) ∧
      ¬ timeAt yrs dts out.1 < Bd ∧
      out.2.1 = acc + winSum X j out.1 ∧
      out.2.2 = cnt + (out.1 - j)
  | 0, j, acc, cnt, out, h => by simp [consume] at h
  | fuel + 1, j, acc, cnt, out, h => by
    rw [consume] at h
    cases hy : yrs.get? j with
    | none => rw [hy] at h; simp at h
    | some y =>
      cases hd : dts.get? j with
      | none => rw [hy, hd] at h; simp at h
      | some dt =>
        rw [hy, hd] at h
        simp only at h
        by_cases hlt : dtAbs y dt < Bd
        · rw [if_pos hlt] at h
          cases hy' : yrs.get? (j + 1) with
          | none => rw [hy'] at h; simp at h
          | some y' =>
            cases hd' : dts.get? (j + 1) with
            | none => rw [hy', hd'] at h; simp at h
            | some dt' =>
              cases hx' : X.get? (j + 1) with
              | none => rw [hy', hd', hx'] at h; simp at h
              | some x' =>
                rw [hy', hd', hx'] at h
                simp only at h
                obtain ⟨hj, hlen, hwin, hstop, hacc, hcnt⟩ :=
                  consume_spec hl1 hl2 fuel (j + 1) (acc + x') (cnt + 1) out h
                have htj : timeAt yrs dts j = dtAbs y dt := timeAt_of_get? hy hd
                refine ⟨by omega, hlen, ?_, hstop, ?_, by omega⟩
                · intro k hk1 hk2
                  rcases Nat.eq_or_lt_of_le hk1 with rfl | hk1'
                  · rw [htj]; exact hlt
                  · exact hwin k hk1' hk2
                · rw [hacc]
                  unfold winSum
                  rw [Finset.sum_eq_sum_Ico_succ_bot (by omega : j < out.1)]
                  rw [getD_of_get? 0 hx']
                  ring
        · rw [if_neg hlt] at h
          simp only [Option.some.injEq] at h
          subst h
          have htj : timeAt yrs dts j = dtAbs y dt := timeAt_of_get? hy hd
          dsimp only
          refine ⟨le_refl j, lt_length_of_get? hd, ?_, by rw [htj]; exact hlt, ?_, by omega⟩
          · intro k hk1 hk2
            omega
          · unfold winSum
            rw [Finset.Ico_self, Finset.sum_empty]
            ring

/-! ## The outer sweep loop -/

/-- Accumulator normalisation: a sweep run from arbitrary accumulators is the
run from empty accumulators with the prefixes prepended. -/
theorem sweep_acc (yrs : List ℤ) (dts : List ℚ) (X : List ℚ) (m : String) (itv : ℤ) (eA : ℚ) :
    ∀ (fuel : ℕ) (cur : ℚ) (j : ℕ) (A : List ℤ) (B C : List ℚ),
      sweep yrs dts X m itv eA fuel cur j A B C =
        (sweep yrs dts X m itv eA fuel cur j [] [] []).map
          (fun o => (A ++ o.1, B ++ o.2.1, C ++ o.2.2))
  | 0, cur, j, A, B, C => by
    by_cases hc : cur < eA <;> simp [sweep, hc]
  | fuel + 1, cur, j, A, B, C => by
    by_cases hc : cur < eA
    · cases hcons : consume yrs dts X (cur + (itv : ℚ)) (dts.length + 1) j 0 0 with
      | none => simp only [sweep, if_pos hc, hcons, Option.map_none']
      | some o =>
        obtain ⟨j', acc, cnt⟩ := o
        simp only [sweep, if_pos hc, hcons, List.nil_append]
        rw [sweep_acc yrs dts X m itv eA fuel (cur + (itv : ℚ)) j'
            (A ++ [(rowOf (cur + (itv : ℚ)) itv).1]) (B ++ [(rowOf (cur + (itv : ℚ)) itv).2])
            (C ++ [emit m acc cnt]),
          sweep_acc yrs dts X m itv eA fuel (cur + (itv : ℚ)) j'
            [(rowOf (cur + (itv : ℚ)) itv).1] [(rowOf (cur + (itv : ℚ)) itv).2]
            [emit m acc cnt]]
        cases sweep yrs dts X m itv eA fuel (cur + (itv : ℚ)) j' [] [] [] with
        | none => rfl
        | some o' => simp
    · simp [sweep, hc]

/-- Shape of a successful sweep: equal output lengths, each row holding the
year and timestamp of its boundary `cur + (i+1) * interval`, the cursor
passing the end boundary exactly when the rows stop, and every emitted
boundary's predecessor cursor below the end boundary. -/
theorem sweep_rows (yrs : List ℤ) (dts : List ℚ) (X : List ℚ) (m : String) (itv : ℤ) (eA : ℚ) :
    ∀ (fuel : ℕ) (cur : ℚ) (j : ℕ) (out : List ℤ × List ℚ × List ℚ),
      sweep yrs dts X m itv eA fuel cur j [] [] [] = some out →
      (out.1.length = out.2.2.length ∧ out.2.1.length = out.2.2.length) ∧
      (∀ i, i < out.2.2.length →
        out.1.getD i 0 = (rowOf (cur + ((i + 1 : ℕ) : ℚ) * (itv : ℚ)) itv).1 ∧
        out.2.1.getD i 0 = (rowOf (cur + ((i + 1 : ℕ) : ℚ) * (itv : ℚ)) itv).2) ∧
      eA ≤ cur + (out.2.2.length : ℚ) * (itv : ℚ) ∧
      (∀ i, i < out.2.2.length → cur + (i : ℚ) * (itv : ℚ) < eA)
  | 0, cur, j, out, h => by
    rw [sweep] at h
    by_cases hc : cur < eA
    · rw [if_pos hc] at h; simp at h
    · rw [if_neg hc] at h
      simp only [Option.some.injEq] at h
      subst h
      refine ⟨⟨rfl, rfl⟩, fun i hi => by simp at hi, ?_, fun i hi => by simp at hi⟩
      simp only [List.length_nil, Nat.cast_zero, zero_mul, add_zero]
      exact le_of_not_lt hc
  | fuel + 1, cur, j, out, h => by
    by_cases hc : cur < eA
    · cases hcons : consume yrs dts X (cur + (itv : ℚ)) (dts.length + 1) j 0 0 with
      | none =>
        simp only [sweep, if_pos hc, hcons] at h
        exact Option.noConfusion h
      | some o =>
        obtain ⟨j', acc, cnt⟩ := o
        simp only [sweep, if_pos hc, hcons, List.nil_append] at h
        rw [sweep_acc] at h
        cases hbase : sweep yrs dts X m itv eA fuel (cur + (itv : ℚ)) j' [] [] [] with
        | none => rw [hbase] at h; simp at h
        | some o' =>
          rw [hbase] at h
          simp only [Option.map_some', Option.some.injEq] at h
          subst h
          obtain ⟨⟨hlen1, hlen2⟩, hrows, hend, hbnd⟩ :=
            sweep_rows yrs dts X m itv eA fuel (cur + (itv : ℚ)) j' o' hbase
          have harg : ∀ i : ℕ, (cur + (itv : ℚ)) + ((i + 1 : ℕ) : ℚ) * (itv : ℚ) =
              cur + ((i + 1 + 1 : ℕ) : ℚ) * (itv : ℚ) := by
            intro i; push_cast; ring
          refine ⟨⟨by simp [hlen1], by simp [hlen2]⟩, ?_, ?_, ?_⟩
          · intro i hi
            simp only [List.length_append, List.length_cons, List.length_nil] at hi
            cases i with
            | zero =>
              constructor
              · simp only [List.singleton_append, List.getD_cons_zero]
                norm_num
              · simp only [List.singleton_append, List.getD_cons_zero]
                norm_num
            | succ i =>
              have hi' : i < o'.2.2.length := by omega
              obtain ⟨h1, h2⟩ := hrows i hi'
              constructor
              · simp only [List.singleton_append, List.getD_cons_succ]
                rw [h1, harg i]
              · simp only [List.singleton_append, List.getD_cons_succ]
                rw [h2, harg i]
          · simp only [List.singleton_append, List.length_cons]
            push_cast
            linarith
          · intro i hi
            simp only [List.singleton_append, List.length_cons] at hi
            cases i with
            | zero => simpa using hc
            | succ i =>
              have := hbnd i (by omega)
              push_cast at this ⊢
              linarith
    · simp only [sweep, if_neg hc, Option.some.injEq] at h
      subst h
      refine ⟨⟨rfl, rfl⟩, fun i hi => by simp at hi, ?_, fun i hi => by simp at hi⟩
      simp only [List.length_nil, Nat.cast_zero, zero_mul, add_zero]
      exact le_of_not_lt hc

/-- Counting characterisation: if the events strictly before index `a` are
exactly those strictly before time `b`, then `cnsm` at `b` is `a`. -/
theorem cnsm_eq_of (yrs : List ℤ) (dts : List ℚ) (b : ℚ) (a : ℕ) (ha : a ≤ dts.length)
    (h1 : ∀ k, k < a → timeAt yrs dts k < b)
    (h2 : ∀ k, a ≤ k → k < dts.length → ¬ timeAt yrs dts k < b) :
    cnsm yrs dts b = a := by
  unfold cnsm
  have hf : (Finset.range dts.length).filter (fun k => timeAt yrs dts k < b) =
      Finset.range a := by
    ext k
    simp only [Finset.mem_filter, Finset.mem_range]
    constructor
    · rintro ⟨hk, hkb⟩
      by_contra hka
      exact h2 k (by omega) hk hkb
    · intro hk
      exact ⟨by omega, h1 k hk⟩
  rw [hf, Finset.card_range]

theorem chain_mono {f : ℕ → ℕ} {N : ℕ} (h : ∀ i, i < N → f i ≤ f (i + 1)) :
    ∀ b, b ≤ N → f 0 ≤ f b := by
  intro b
  induction b with
  | zero => intro _; exact le_refl _
  | succ b ih => intro hb; exact le_trans (ih (by omega)) (h b (by omega))

/-- Value characterisation of a successful sweep on an ascending input: the
aggregate of row `i` is `emit` applied to the window of values between
consecutive positions of the pointer trajectory `ptr`; the trajectory is
monotone; after the last bucket the consumed events are exactly those before
the final boundary, and the final pointer stays strictly inside the input; in
`sum` mode the total output is the window sum from the entry pointer to the
final pointer. -/
theorem sweep_vals (yrs : List ℤ) (dts : List ℚ) (X : List ℚ) (m : String) (itv : ℤ) (eA : ℚ)
    (hl1 : yrs.length = dts.length) (hl2 : X.length = dts.length)
    (hasc : Ascending yrs dts) (hitv : 0 < itv) :
    ∀ (fuel : ℕ) (cur : ℚ) (j : ℕ) (out : List ℤ × List ℚ × List ℚ),
      (∀ k, k < j → timeAt yrs dts k < cur) →
      sweep yrs dts X m itv eA fuel cur j [] [] [] = some out →
      (∀ i, i < out.2.2.length →
        out.2.2.getD i 0 = emit m
          (winSum X (ptr yrs dts cur itv j i) (ptr yrs dts cur itv j (i + 1)))
          (ptr yrs dts cur itv j (i + 1) - ptr yrs dts cur itv j i)) ∧
      (∀ i, i < out.2.2.length → ptr yrs dts cur itv j i ≤ ptr yrs dts cur itv j (i + 1)) ∧
      (0 < out.2.2.length →
        (∀ k, k < ptr yrs dts cur itv j out.2.2.length →
          timeAt yrs dts k < cur + (out.2.2.length : ℚ) * (itv : ℚ)) ∧
        (∀ k, ptr yrs dts cur itv j out.2.2.length ≤ k → k < dts.length →
          ¬ timeAt yrs dts k < cur + (out.2.2.length : ℚ) * (itv : ℚ)) ∧
        ptr yrs dts cur itv j out.2.2.length < dts.length) ∧
      (m = "sum" → out.2.2.sum = winSum X j (ptr yrs dts cur itv j out.2.2.length))
  | 0, cur, j, out, hinv, h => by
    rw [sweep] at h
    by_cases hc : cur < eA
    · rw [if_pos hc] at h; exact Option.noConfusion h
    · rw [if_neg hc] at h
      simp only [Option.some.injEq] at h
      subst h
      refine ⟨fun i hi => by simp at hi, fun i hi => by simp at hi,
        fun hlen => by simp at hlen, fun _ => ?_⟩
      show (0 : ℚ) = winSum X j (ptr yrs dts cur itv j 0)
      show (0 : ℚ) = winSum X j j
      unfold winSum
      rw [Finset.Ico_self, Finset.sum_empty]
  | fuel + 1, cur, j, out, hinv, h => by
    by_cases hc : cur < eA
    · cases hcons : consume yrs dts X (cur + (itv : ℚ)) (dts.length + 1) j 0 0 with
      | none =>
        simp only [sweep, if_pos hc, hcons] at h
        exact Option.noConfusion h
      | some o =>
        obtain ⟨j1, acc, cnt⟩ := o
        simp only [sweep, if_pos hc, hcons, List.nil_append] at h
        rw [sweep_acc] at h
        cases hbase : sweep yrs dts X m itv eA fuel (cur + (itv : ℚ)) j1 [] [] [] with
        | none => rw [hbase] at h; exact Option.noConfusion h
        | some o' =>
          rw [hbase] at h
          simp only [Option.map_some', Option.some.injEq] at h
          subst h
          obtain ⟨hj, hlen, hwin, hstop, hacc, hcnt⟩ :=
            consume_spec hl1 hl2 (dts.length + 1) j 0 0 (j1, acc, cnt) hcons
          simp only at hj hlen hwin hstop hacc hcnt
          have hitvq : (0 : ℚ) < (itv : ℚ) := by exact_mod_cast hitv
          have hinv1 : ∀ k, k < j1 → timeAt yrs dts k < cur + (itv : ℚ) := by
            intro k hk
            by_cases hkj : k < j
            · have := hinv k hkj
              linarith
            · exact hwin k (by omega) hk
          have hstop2 : ∀ k, j1 ≤ k → k < dts.length →
              ¬ timeAt yrs dts k < cur + (itv : ℚ) := by
            intro k hk1 hk2 hcon
            exact hstop (lt_of_le_of_lt (ascending_le hasc j1 k hk1 hk2) hcon)
          have hcnsm : cnsm yrs dts (cur + (itv : ℚ)) = j1 :=
            cnsm_eq_of yrs dts _ j1 (by omega) hinv1 hstop2
          have hp1 : ptr yrs dts cur itv j 1 = j1 := by
            show cnsm yrs dts (cur + ((0 + 1 : ℕ) : ℚ) * (itv : ℚ)) = j1
            rw [show cur + ((0 + 1 : ℕ) : ℚ) * (itv : ℚ) = cur + (itv : ℚ) by push_cast; ring]
            exact hcnsm
          have hshift : ∀ i : ℕ, ptr yrs dts cur itv j (i + 1) =
              ptr yrs dts (cur + (itv : ℚ)) itv j1 i := by
            intro i
            cases i with
            | zero => exact hp1
            | succ i =>
              show cnsm yrs dts (cur + ((i + 1 + 1 : ℕ) : ℚ) * (itv : ℚ)) =
                cnsm yrs dts ((cur + (itv : ℚ)) + ((i + 1 : ℕ) : ℚ) * (itv : ℚ))
              congr 1
              push_cast
              ring
          obtain ⟨ihA, ihE, ihC, ihD⟩ :=
            sweep_vals yrs dts X m itv eA hl1 hl2 hasc hitv fuel (cur + (itv : ℚ)) j1 o'
              hinv1 hbase
          have haccw : acc = winSum X j j1 := by rw [hacc]; ring
          have hcntw : cnt = j1 - j := by omega
          refine ⟨?_, ?_, ?_, ?_⟩
          · intro i hi
            cases i with
            | zero =>
              simp only [List.singleton_append, List.getD_cons_zero]
              rw [haccw, hcntw, hp1]
              rfl
            | succ i =>
              have hi' : i < o'.2.2.length := by
                simp only [List.singleton_append, List.length_cons] at hi
                omega
              simp only [List.singleton_append, List.getD_cons_succ]
              rw [ihA i hi', hshift i, hshift (i + 1)]
          · intro i hi
            cases i with
            | zero =>
              show j ≤ ptr yrs dts cur itv j 1
              rw [hp1]
              exact hj
            | succ i =>
              have hi' : i < o'.2.2.length := by
                simp only [List.singleton_append, List.length_cons] at hi
                omega
              rw [hshift i, hshift (i + 1)]
              exact ihE i hi'
          · intro hlen0
            have hNlen : ([emit m acc cnt] ++ o'.2.2).length = o'.2.2.length + 1 := by simp
            rw [hNlen, hshift o'.2.2.length]
            have hbd : cur + ((o'.2.2.length + 1 : ℕ) : ℚ) * (itv : ℚ) =
                (cur + (itv : ℚ)) + ((o'.2.2.length : ℕ) : ℚ) * (itv : ℚ) := by
              push_cast
              ring
            rw [hbd]
            by_cases hN0 : o'.2.2.length = 0
            · rw [hN0]
              simp only [Nat.cast_zero, zero_mul, add_zero]
              exact ⟨hinv1, hstop2, hlen⟩
            · exact ihC (by omega)
          · intro hm
            have hchain : j1 ≤ ptr yrs dts (cur + (itv : ℚ)) itv j1 o'.2.2.length := by
              have := chain_mono ihE o'.2.2.length (le_refl _)
              exact this
            dsimp only
            simp only [List.singleton_append, List.sum_cons, List.length_cons]
            rw [ihD hm, hshift o'.2.2.length,
              show emit m acc cnt = acc from by rw [hm]; rfl, haccw]
            unfold winSum
            exact Finset.sum_Ico_consecutive _ hj hchain
    · simp only [sweep, if_neg hc, Option.some.injEq] at h
      subst h
      refine ⟨fun i hi => by simp at hi, fun i hi => by simp at hi,
        fun hlen => by simp at hlen, fun _ => ?_⟩
      show (0 : ℚ) = winSum X j j
      unfold winSum
      rw [Finset.Ico_self, Finset.sum_empty]

/-! ## Bridging `event2time` to the sweep -/

/-- For a normalised mode and an interval already in `[1, 86400]`,
`event2time` is exactly the sweep from the start boundary. -/
theorem event2time_eq_sweep (yyyy : List ℤ) (doytime X : List ℚ) (m : String) (itv : ℤ)
    (h1 : 1 ≤ itv) (h2 : itv ≤ 86400) (hm : m = "sum" ∨ m = "avg")
    {y0 : ℤ} {dt0 : ℚ} {yL : ℤ} {dtL : ℚ}
    (hy0 : yyyy.get? 0 = some y0) (hdt0 : doytime.get? 0 = some dt0)
    (hyL : yyyy.get? (yyyy.length - 1) = some yL)
    (hdtL : doytime.get? (doytime.length - 1) = some dtL) :
    event2time yyyy doytime X m (some itv) =
      sweep yyyy doytime X m itv (endAbsOf yL dtL itv)
        ((⌈(endAbsOf yL dtL itv - startAbsOf y0 dt0 itv) / (itv : ℚ)⌉).toNat + 1)
        (startAbsOf y0 dt0 itv) 0 [] [] [] := by
  have hmn : ¬(m ≠ "sum" ∧ m ≠ "avg") := by
    rcases hm with h | h <;> simp [h]
  simp only [event2time, Option.getD_some, if_neg hmn,
    if_neg (show ¬ itv > 86400 by omega), if_neg (show ¬ itv ≤ 0 by omega),
    hy0, hdt0, hyL, hdtL]

/-- With `interval = 86400` the start boundary is the first event's midnight,
as an exact whole number of days in seconds. -/
theorem startAbsOf_86400 (y0 : ℤ) (dt0 : ℚ) :
    startAbsOf y0 dt0 86400 = (((daysBeforeYear y0 + ⌊dt0⌋ - 1) * 86400 : ℤ) : ℚ) := by
  unfold startAbsOf startOf
  rw [starttimeOf_86400, dtAbs_eq]
  push_cast
  ring

/-- C9: every emitted row's `doy` component is the day of year of the row's
boundary; with `interval = 86400` one day is subtracted (and the boundary is
an exact midnight, so the row value is exactly that integer), with
`interval < 86400` it is carried unmodified. -/
theorem event2time_daily_doy (yyyy : List ℤ) (doytime X : List ℚ) (m : String) (itv : ℤ)
    (out : List ℤ × List ℚ × List ℚ) (y0 : ℤ) (dt0 : ℚ) (yL : ℤ) (dtL : ℚ)
    (h1 : 1 ≤ itv) (h2 : itv ≤ 86400) (hm : m = "sum" ∨ m = "avg")
    (hy0 : yyyy.get? 0 = some y0) (hdt0 : doytime.get? 0 = some dt0)
    (hyL : yyyy.get? (yyyy.length - 1) = some yL)
    (hdtL : doytime.get? (doytime.length - 1) = some dtL)
    (h : event2time yyyy doytime X m (some itv) = some out) :
    ∀ i, i < out.2.1.length →
      (itv = 86400 → out.2.1.getD i 0 =
        ((doyOfAbs (startAbsOf y0 dt0 itv + ((i + 1 : ℕ) : ℚ) * (itv : ℚ)) : ℕ) : ℚ) - 1) ∧
      (itv < 86400 → ⌊out.2.1.getD i 0⌋ =
        ((doyOfAbs (startAbsOf y0 dt0 itv + ((i + 1 : ℕ) : ℚ) * (itv : ℚ)) : ℕ) : ℤ)) := by
  rw [event2time_eq_sweep yyyy doytime X m itv h1 h2 hm hy0 hdt0 hyL hdtL] at h
  obtain ⟨⟨hlenA, hlenB⟩, hrows, -, -⟩ := sweep_rows yyyy doytime X m itv _ _ _ _ out h
  intro i hi
  have hi' : i < out.2.2.length := by omega
  obtain ⟨-, hB⟩ := hrows i hi'
  constructor
  · intro hitv
    subst hitv
    rw [hB]
    have hM : startAbsOf y0 dt0 86400 + ((i + 1 : ℕ) : ℚ) * ((86400 : ℤ) : ℚ) =
        (((daysBeforeYear y0 + ⌊dt0⌋ - 1 + ((i : ℤ) + 1)) * 86400 : ℤ) : ℚ) := by
      rw [startAbsOf_86400]
      push_cast
      ring
    rw [hM, rowOf_daily]
  · intro hitv
    rw [hB, rowOf_floor _ _ (by omega)]

set_option maxRecDepth 100000 in
unseal Rat.add Rat.sub Rat.mul Rat.inv Rat.ofScientific in
/-- C9 witness: two events straddling new year 2008, daily interval: the
single row carries day of year `1 - 1 = 0`. -/
theorem event2time_daily_doy_witness :
    ([(0 : ℚ)]).getD 0 0 =
      ((doyOfAbs (startAbsOf 2007 365 86400 + ((0 + 1 : ℕ) : ℚ) * ((86400 : ℤ) : ℚ)) : ℕ) : ℚ)
        - 1 :=
  ((event2time_daily_doy [2007, 2008] [365, (3 : ℚ)/2] [0, 0] "sum" 86400
    ([2008], [0], [0]) 2007 365 2008 ((3 : ℚ)/2) (by norm_num) (by norm_num) (Or.inl rfl)
    rfl rfl rfl rfl (by decide)) 0 (by norm_num)).1 rfl

/-- C7 (amended): every emitted timestamp lies in `[0, 367)`, and in
`[1, 367)` when the interval is below one day; the lower end 0 is reachable
only through the day subtraction of the daily interval. -/
theorem event2time_dtime_range (yyyy : List ℤ) (doytime X : List ℚ) (m : String) (itv : ℤ)
    (out : List ℤ × List ℚ × List ℚ) (y0 : ℤ) (dt0 : ℚ) (yL : ℤ) (dtL : ℚ)
    (h1 : 1 ≤ itv) (h2 : itv ≤ 86400) (hm : m = "sum" ∨ m = "avg")
    (hy0 : yyyy.get? 0 = some y0) (hdt0 : doytime.get? 0 = some dt0)
    (hyL : yyyy.get? (yyyy.length - 1) = some yL)
    (hdtL : doytime.get? (doytime.length - 1) = some dtL)
    (h : event2time yyyy doytime X m (some itv) = some out) :
    ∀ i, i < out.2.1.length →
      0 ≤ out.2.1.getD i 0 ∧ out.2.1.getD i 0 < 367 ∧
      (itv < 86400 → 1 ≤ out.2.1.getD i 0) := by
  rw [event2time_eq_sweep yyyy doytime X m itv h1 h2 hm hy0 hdt0 hyL hdtL] at h
  obtain ⟨⟨hlenA, hlenB⟩, hrows, -, -⟩ := sweep_rows yyyy doytime X m itv _ _ _ _ out h
  intro i hi
  have hi' : i < out.2.2.length := by omega
  obtain ⟨-, hB⟩ := hrows i hi'
  rw [hB]
  obtain ⟨b1, b2, b3⟩ :=
    rowOf_snd_bounds (startAbsOf y0 dt0 itv + ((i + 1 : ℕ) : ℚ) * (itv : ℚ)) itv
  exact ⟨b1, b2, fun hlt => b3 (by omega)⟩

set_option maxRecDepth 100000 in
unseal Rat.add Rat.sub Rat.mul Rat.inv Rat.ofScientific in
/-- C7 counterexample: a valid ascending two-event input across new year with
the daily interval emits the timestamp 0, outside the claimed `[1, 367)`. -/
theorem event2time_dtime_range_counterexample :
    dtAbs 2007 365 < dtAbs 2008 ((3 : ℚ)/2) ∧
    event2time [2007, 2008] [365, (3 : ℚ)/2] [0, 0] "sum" (some 86400) =
      some ([2008], [0], [0]) ∧
    ¬ (1 : ℚ) ≤ 0 := by decide

set_option maxRecDepth 100000 in
unseal Rat.add Rat.sub Rat.mul Rat.inv Rat.ofScientific in
/-- C7 witness: on the docstring example all thirteen rows' timestamps are in
range; checked here for the first row. -/
theorem event2time_dtime_range_witness :
    0 ≤ ([153 + (14:ℚ)/24, 153 + (15:ℚ)/24, 153 + (16:ℚ)/24, 153 + (17:ℚ)/24, 153 + (18:ℚ)/24,
       153 + (19:ℚ)/24, 153 + (20:ℚ)/24, 153 + (21:ℚ)/24, 153 + (22:ℚ)/24, 153 + (23:ℚ)/24,
       154, 154 + (1:ℚ)/24, 154 + (2:ℚ)/24]).getD 0 0 ∧
    ([153 + (14:ℚ)/24, 153 + (15:ℚ)/24, 153 + (16:ℚ)/24, 153 + (17:ℚ)/24, 153 + (18:ℚ)/24,
       153 + (19:ℚ)/24, 153 + (20:ℚ)/24, 153 + (21:ℚ)/24, 153 + (22:ℚ)/24, 153 + (23:ℚ)/24,
       154, 154 + (1:ℚ)/24, 154 + (2:ℚ)/24]).getD 0 0 < 367 ∧
    ((3600 : ℤ) < 86400 →
      1 ≤ ([153 + (14:ℚ)/24, 153 + (15:ℚ)/24, 153 + (16:ℚ)/24, 153 + (17:ℚ)/24, 153 + (18:ℚ)/24,
       153 + (19:ℚ)/24, 153 + (20:ℚ)/24, 153 + (21:ℚ)/24, 153 + (22:ℚ)/24, 153 + (23:ℚ)/24,
       154, 154 + (1:ℚ)/24, 154 + (2:ℚ)/24]).getD 0 0) :=
  (event2time_dtime_range [2008, 2008, 2008] [(307:ℚ)/2, (1539:ℚ)/10, (1541:ℚ)/10]
    [0, (2:ℚ)/5, 2] "sum" 3600
    ([2008, 2008, 2008, 2008, 2008, 2008, 2008, 2008, 2008, 2008, 2008, 2008, 2008],
      [153 + (14:ℚ)/24, 153 + (15:ℚ)/24, 153 + (16:ℚ)/24, 153 + (17:ℚ)/24, 153 + (18:ℚ)/24,
       153 + (19:ℚ)/24, 153 + (20:ℚ)/24, 153 + (21:ℚ)/24, 153 + (22:ℚ)/24, 153 + (23:ℚ)/24,
       154, 154 + (1:ℚ)/24, 154 + (2:ℚ)/24],
      [(2:ℚ)/5, 0, 0, 0, 0, 0, 0, 0, 2, 0, 0, 0, 0])
    2008 ((307:ℚ)/2) 2008 ((1541:ℚ)/10) (by norm_num) (by norm_num) (Or.inl rfl)
    rfl rfl rfl rfl (by decide)) 0 (by norm_num)

set_option maxRecDepth 100000 in
unseal Rat.add Rat.sub Rat.mul Rat.inv Rat.ofScientific in
/-- C3: the docstring example, computed exactly: 13 rows, all years 2008,
timestamps climbing by 1/24 day from 153.58333… to 154.08333…, aggregates
`[0.4, 0, 0, 0, 0, 0, 0, 0, 2, 0, 0, 0, 0]`. -/
theorem event2time_docstring_example :
    event2time [2008, 2008, 2008] [(307:ℚ)/2, (1539:ℚ)/10, (1541:ℚ)/10] [0, (2:ℚ)/5, 2]
      "sum" (some 3600) =
    some ([2008, 2008, 2008, 2008, 2008, 2008, 2008, 2008, 2008, 2008, 2008, 2008, 2008],
      [153 + (14:ℚ)/24, 153 + (15:ℚ)/24, 153 + (16:ℚ)/24, 153 + (17:ℚ)/24, 153 + (18:ℚ)/24,
       153 + (19:ℚ)/24, 153 + (20:ℚ)/24, 153 + (21:ℚ)/24, 153 + (22:ℚ)/24, 153 + (23:ℚ)/24,
       154, 154 + (1:ℚ)/24, 154 + (2:ℚ)/24],
      [(2:ℚ)/5, 0, 0, 0, 0, 0, 0, 0, 2, 0, 0, 0, 0]) := by decide

set_option maxRecDepth 100000 in
unseal Rat.add Rat.sub Rat.mul Rat.inv Rat.ofScientific in
/-- C1 counterexample: on the docstring example the emitted aggregates sum to
2.4, while the input values with timestamps inside `[start, end)` sum to 0.4
(only the event at 153.9 lies in the window, and the loop credits each bucket
with the value at the index after the consumed event). -/
theorem event2time_window_conservation_fails :
    Ascending [2008, 2008, 2008] [(307:ℚ)/2, (1539:ℚ)/10, (1541:ℚ)/10] ∧
    (event2time [2008, 2008, 2008] [(307:ℚ)/2, (1539:ℚ)/10, (1541:ℚ)/10] [0, (2:ℚ)/5, 2]
      "sum" (some 3600)).map (fun o => o.2.2.sum) = some ((12:ℚ)/5) ∧
    windowSum [2008, 2008, 2008] [(307:ℚ)/2, (1539:ℚ)/10, (1541:ℚ)/10] [0, (2:ℚ)/5, 2] 3600 =
      (2:ℚ)/5 ∧
    ((12:ℚ)/5 : ℚ) ≠ (2:ℚ)/5 := by decide

/-- C1 (amended): in `sum` mode the total of the emitted aggregates is the
sum of the values at the successor positions of the consumed events — the
events strictly before the final boundary, which form a prefix of the input
that never includes the last event. -/
theorem event2time_sum_conservation (yyyy : List ℤ) (doytime X : List ℚ) (itv : ℤ)
    (out : List ℤ × List ℚ × List ℚ) (y0 : ℤ) (dt0 : ℚ) (yL : ℤ) (dtL : ℚ)
    (hl1 : yyyy.length = doytime.length) (hl2 : X.length = doytime.length)
    (hasc : Ascending yyyy doytime) (h1 : 1 ≤ itv) (h2 : itv ≤ 86400)
    (hy0 : yyyy.get? 0 = some y0) (hdt0 : doytime.get? 0 = some dt0)
    (hyL : yyyy.get? (yyyy.length - 1) = some yL)
    (hdtL : doytime.get? (doytime.length - 1) = some dtL)
    (h : event2time yyyy doytime X "sum" (some itv) = some out) :
    out.2.2.sum = winSum X 0 (if out.2.2.length = 0 then 0 else
      cnsm yyyy doytime (startAbsOf y0 dt0 itv + (out.2.2.length : ℚ) * (itv : ℚ))) ∧
    (0 < out.2.2.length →
      cnsm yyyy doytime (startAbsOf y0 dt0 itv + (out.2.2.length : ℚ) * (itv : ℚ))
        < doytime.length) := by
  rw [event2time_eq_sweep yyyy doytime X "sum" itv h1 h2 (Or.inl rfl) hy0 hdt0 hyL hdtL] at h
  obtain ⟨hA, hE, hC, hD⟩ :=
    sweep_vals yyyy doytime X "sum" itv _ hl1 hl2 hasc (by omega) _ _ 0 out
      (fun k hk => absurd hk (Nat.not_lt_zero k)) h
  constructor
  · rw [hD rfl]
    by_cases hN : out.2.2.length = 0
    · rw [hN]
      rfl
    · rw [if_neg hN]
      obtain ⟨k, hk⟩ : ∃ k, out.2.2.length = k + 1 := ⟨out.2.2.length - 1, by omega⟩
      rw [hk]
      rfl
  · intro hpos
    obtain ⟨-, -, hlt⟩ := hC hpos
    obtain ⟨k, hk⟩ : ∃ k, out.2.2.length = k + 1 := ⟨out.2.2.length - 1, by omega⟩
    rw [hk] at hlt ⊢
    exact hlt

set_option maxRecDepth 400000 in
unseal Rat.add Rat.sub Rat.mul Rat.inv Rat.ofScientific in
/-- C1 witness: the amended conservation law on the docstring example. -/
theorem event2time_sum_conservation_witness :
    ([(2:ℚ)/5, 0, 0, 0, 0, 0, 0, 0, 2, 0, 0, 0, 0] : List ℚ).sum =
      winSum [0, (2:ℚ)/5, 2] 0 (if (13 : ℕ) = 0 then 0 else
        cnsm [2008, 2008, 2008] [(307:ℚ)/2, (1539:ℚ)/10, (1541:ℚ)/10]
          (startAbsOf 2008 ((307:ℚ)/2) 3600 + ((13 : ℕ) : ℚ) * ((3600 : ℤ) : ℚ))) ∧
    (0 < (13 : ℕ) →
      cnsm [2008, 2008, 2008] [(307:ℚ)/2, (1539:ℚ)/10, (1541:ℚ)/10]
          (startAbsOf 2008 ((307:ℚ)/2) 3600 + ((13 : ℕ) : ℚ) * ((3600 : ℤ) : ℚ))
        < ([(307:ℚ)/2, (1539:ℚ)/10, (1541:ℚ)/10] : List ℚ).length) :=
  event2time_sum_conservation [2008, 2008, 2008] [(307:ℚ)/2, (1539:ℚ)/10, (1541:ℚ)/10]
    [0, (2:ℚ)/5, 2] 3600
    ([2008, 2008, 2008, 2008, 2008, 2008, 2008, 2008, 2008, 2008, 2008, 2008, 2008],
      [153 + (14:ℚ)/24, 153 + (15:ℚ)/24, 153 + (16:ℚ)/24, 153 + (17:ℚ)/24, 153 + (18:ℚ)/24,
       153 + (19:ℚ)/24, 153 + (20:ℚ)/24, 153 + (21:ℚ)/24, 153 + (22:ℚ)/24, 153 + (23:ℚ)/24,
       154, 154 + (1:ℚ)/24, 154 + (2:ℚ)/24],
      [(2:ℚ)/5, 0, 0, 0, 0, 0, 0, 0, 2, 0, 0, 0, 0])
    2008 ((307:ℚ)/2) 2008 ((1541:ℚ)/10) rfl rfl (by decide) (by norm_num) (by norm_num)
    rfl rfl rfl rfl (by decide)

/-- C4: per-bucket aggregation policy.  In `avg` mode a bucket that consumed
no events (the pointer trajectory does not move) emits exactly `-9999` with
no division, and a bucket that consumed `k ≥ 1` events emits its accumulated
window sum divided by `k`; in `sum` mode a bucket that consumed no events
emits 0. -/
theorem event2time_bucket_policy (yyyy : List ℤ) (doytime X : List ℚ) (itv : ℤ)
    (y0 : ℤ) (dt0 : ℚ) (yL : ℤ) (dtL : ℚ)
    (hl1 : yyyy.length = doytime.length) (hl2 : X.length = doytime.length)
    (hasc : Ascending yyyy doytime) (h1 : 1 ≤ itv) (h2 : itv ≤ 86400)
    (hy0 : yyyy.get? 0 = some y0) (hdt0 : doytime.get? 0 = some dt0)
    (hyL : yyyy.get? (yyyy.length - 1) = some yL)
    (hdtL : doytime.get? (doytime.length - 1) = some dtL) :
    (∀ out, event2time yyyy doytime X "avg" (some itv) = some out →
      ∀ i, i < out.2.2.length →
        (ptr yyyy doytime (startAbsOf y0 dt0 itv) itv 0 (i + 1) =
            ptr yyyy doytime (startAbsOf y0 dt0 itv) itv 0 i →
          out.2.2.getD i 0 = -9999) ∧
        (ptr yyyy doytime (startAbsOf y0 dt0 itv) itv 0 i <
            ptr yyyy doytime (startAbsOf y0 dt0 itv) itv 0 (i + 1) →
          out.2.2.getD i 0 =
            winSum X (ptr yyyy doytime (startAbsOf y0 dt0 itv) itv 0 i)
                (ptr yyyy doytime (startAbsOf y0 dt0 itv) itv 0 (i + 1)) /
              ((ptr yyyy doytime (startAbsOf y0 dt0 itv) itv 0 (i + 1)
                - ptr yyyy doytime (startAbsOf y0 dt0 itv) itv 0 i : ℕ) : ℚ))) ∧
    (∀ out, event2time yyyy doytime X "sum" (some itv) = some out →
      ∀ i, i < out.2.2.length →
        ptr yyyy doytime (startAbsOf y0 dt0 itv) itv 0 (i + 1) =
            ptr yyyy doytime (startAbsOf y0 dt0 itv) itv 0 i →
          out.2.2.getD i 0 = 0) := by
  constructor
  · intro out h i hi
    rw [event2time_eq_sweep yyyy doytime X "avg" itv h1 h2 (Or.inr rfl) hy0 hdt0 hyL hdtL] at h
    obtain ⟨hA, hE, hC, hD⟩ :=
      sweep_vals yyyy doytime X "avg" itv _ hl1 hl2 hasc (by omega) _ _ 0 out
        (fun k hk => absurd hk (Nat.not_lt_zero k)) h
    constructor
    · intro hz
      rw [hA i hi, hz]
      simp [emit]
    · intro hlt
      rw [hA i hi]
      have hne : ptr yyyy doytime (startAbsOf y0 dt0 itv) itv 0 (i + 1)
          - ptr yyyy doytime (startAbsOf y0 dt0 itv) itv 0 i ≠ 0 := by omega
      simp [emit, hne]
  · intro out h i hi hz
    rw [event2time_eq_sweep yyyy doytime X "sum" itv h1 h2 (Or.inl rfl) hy0 hdt0 hyL hdtL] at h
    obtain ⟨hA, hE, hC, hD⟩ :=
      sweep_vals yyyy doytime X "sum" itv _ hl1 hl2 hasc (by omega) _ _ 0 out
        (fun k hk => absurd hk (Nat.not_lt_zero k)) h
    rw [hA i hi, hz]
    simp [emit, winSum]

set_option maxRecDepth 400000 in
unseal Rat.add Rat.sub Rat.mul Rat.inv Rat.ofScientific in
/-- C4 witness: a two-event input whose second bucket is empty: `avg` emits
the mean 7 then the sentinel `-9999`, `sum` emits 7 then 0. -/
theorem event2time_bucket_policy_witness :
    ([(7:ℚ), -9999] : List ℚ).getD 1 0 = -9999 ∧
    ([(7:ℚ), -9999] : List ℚ).getD 0 0 =
      winSum [5, 7] (ptr [2008, 2008] [(613:ℚ)/4, 154] (startAbsOf 2008 ((613:ℚ)/4) 21600)
          21600 0 0)
        (ptr [2008, 2008] [(613:ℚ)/4, 154] (startAbsOf 2008 ((613:ℚ)/4) 21600) 21600 0 1) /
        ((ptr [2008, 2008] [(613:ℚ)/4, 154] (startAbsOf 2008 ((613:ℚ)/4) 21600) 21600 0 1
          - ptr [2008, 2008] [(613:ℚ)/4, 154] (startAbsOf 2008 ((613:ℚ)/4) 21600)
              21600 0 0 : ℕ) : ℚ) ∧
    ([(7:ℚ), 0] : List ℚ).getD 1 0 = 0 := by
  have hmain := event2time_bucket_policy [2008, 2008] [(613:ℚ)/4, 154] [5, 7] 21600
    2008 ((613:ℚ)/4) 2008 154 rfl rfl (by decide) (by norm_num) (by norm_num)
    rfl rfl rfl rfl
  refine ⟨?_, ?_, ?_⟩
  · exact ((hmain.1 ([2008, 2008], [(615:ℚ)/4, 154], [7, -9999]) (by decide) 1
      (by norm_num)).1 (by decide))
  · exact ((hmain.1 ([2008, 2008], [(615:ℚ)/4, 154], [7, -9999]) (by decide) 0
      (by norm_num)).2 (by decide))
  · exact (hmain.2 ([2008, 2008], [(615:ℚ)/4, 154], [7, 0]) (by decide) 1
      (by norm_num) (by decide))

/-- C6: `date2doy` computes the exact Gregorian day-of-year ordinal on every
calendar-valid triple, and matches the three documented examples. -/
theorem date2doy_gregorian :
    (∀ (d m : ℕ) (y : ℤ), 1 ≤ m → m ≤ 12 → 1 ≤ d → d ≤ monthLen (isLeap y) m →
      date2doy d m y = gregDoy d m y) ∧
    date2doy 4 11 2006 = 308 ∧ date2doy 4 11 2008 = 309 ∧
    date2doyVec [10, 10, 10] [1, 2, 3] [2007, 2008, 2009] = [10, 41, 69] := by
  have key : ∀ (b : Bool), ∀ m, m < 13 → ∀ d, d < 32 → 1 ≤ m → 1 ≤ d → d ≤ monthLen b m →
      (let doy0 := (275 * (m : ℤ)).fdiv 9 - 30 + (d : ℤ) - 2
       let doy1 := if (m : ℤ) < 3 then doy0 + 2 else doy0
       if b = true ∧ 2 < (m : ℤ) then doy1 + 1 else doy1) =
        ((daysInMonthsBefore b m : ℕ) : ℤ) + (d : ℤ) := by decide
  refine ⟨?_, by decide, by decide, by decide⟩
  intro d m y hm1 hm2 hd1 hd2
  have hd32 : d < 32 := by
    cases hb : isLeap y <;> rw [hb] at hd2 <;> interval_cases m <;>
      simp [monthLen] at hd2 <;> omega
  exact key (isLeap y) m (by omega) d hd32 hm1 hd1 hd2

/-- C6 witness: leap day 2008 agrees with the reference ordinal, and the
first documented example holds. -/
theorem date2doy_gregorian_witness :
    date2doy 29 2 2008 = gregDoy 29 2 2008 ∧ date2doy 4 11 2006 = 308 :=
  ⟨date2doy_gregorian.1 29 2 2008 (by norm_num) (by norm_num) (by norm_num) (by decide),
   date2doy_gregorian.2.1⟩

set_option maxRecDepth 400000 in
unseal Rat.add Rat.sub Rat.mul Rat.inv Rat.ofScientific in
/-- C2: the inner loop's missing bound check is reachable.  On this valid
two-event ascending input with interval 10000 (which does not divide a day),
the final boundary overshoots the end boundary, the inner loop consumes the
last event and then reads index 2 of the length-2 input: the whole call
fails (`none`), and so does the inner loop alone at that boundary. -/
theorem event2time_inner_loop_oob :
    ([(2008:ℤ), 2008] : List ℤ).length = ([(153:ℚ), 154 + (1:ℚ)/8] : List ℚ).length ∧
    ([(0:ℚ), 0] : List ℚ).length = ([(153:ℚ), 154 + (1:ℚ)/8] : List ℚ).length ∧
    Ascending [2008, 2008] [(153:ℚ), 154 + (1:ℚ)/8] ∧
    event2time [2008, 2008] [(153:ℚ), 154 + (1:ℚ)/8] [0, 0] "sum" (some 10000) = none ∧
    consume [2008, 2008] [(153:ℚ), 154 + (1:ℚ)/8] [0, 0]
      (startAbsOf 2008 153 10000 + 90000) 3 1 0 0 = none := by decide

set_option maxRecDepth 400000 in
unseal Rat.add Rat.sub Rat.mul Rat.inv Rat.ofScientific in
/-- C5 counterexample: an already equidistant on-grid three-event series
(spacing one interval, end-labeled) is not reproduced: the resampler returns
a single row merging the second and third values. -/
theorem event2time_equidistant_not_identity :
    Ascending [2008, 2008, 2008] [(613:ℚ)/4, (307:ℚ)/2, (615:ℚ)/4] ∧
    ((613:ℚ)/4 + (21600:ℚ)/86400 = (307:ℚ)/2 ∧ (307:ℚ)/2 + (21600:ℚ)/86400 = (615:ℚ)/4) ∧
    ((613:ℚ)/4 - (⌊(613:ℚ)/4⌋ : ℚ)) * 86400 = 1 * 21600 ∧
    event2time [2008, 2008, 2008] [(613:ℚ)/4, (307:ℚ)/2, (615:ℚ)/4] [1, 2, 3]
      "sum" (some 21600) = some ([2008], [(615:ℚ)/4], [5]) ∧
    some ([(2008:ℤ)], [(615:ℚ)/4], [(5:ℚ)]) ≠
      some ([(2008:ℤ), 2008, 2008], [(613:ℚ)/4, (307:ℚ)/2, (615:ℚ)/4], [(1:ℚ), 2, 3]) := by
  decide

/-- The inner loop cannot fail while the last event lies at or past the
boundary: the walk stops before running off the end. -/
theorem consume_total {yrs : List ℤ} {dts X : List ℚ} {Bd : ℚ}
    (hl1 : yrs.length = dts.length) (hl2 : X.length = dts.length)
    (hasc : Ascending yrs dts) :
    ∀ (fuel j : ℕ) (acc : ℚ) (cnt : ℕ),
      j < dts.length → dts.length - j < fuel →
      ¬ timeAt yrs dts (dts.length - 1) < Bd →
      (consume yrs dts X Bd fuel j acc cnt).isSome
  | 0, j, acc, cnt, hj, hfuel, hlast => by omega
  | fuel + 1, j, acc, cnt, hj, hfuel, hlast => by
    have hyj : yrs.get? j = some (yrs.get ⟨j, by omega⟩) := List.get?_eq_get (by omega)
    have hdj : dts.get? j = some (dts.get ⟨j, hj⟩) := List.get?_eq_get hj
    rw [consume, hyj, hdj]
    simp only
    by_cases hb : dtAbs (yrs.get ⟨j, by omega⟩) (dts.get ⟨j, hj⟩) < Bd
    · rw [if_pos hb]
      have htj : timeAt yrs dts j = dtAbs (yrs.get ⟨j, by omega⟩) (dts.get ⟨j, hj⟩) :=
        timeAt_of_get? hyj hdj
      have hjlast : j ≠ dts.length - 1 := by
        intro hcon
        rw [← hcon] at hlast
        rw [← htj] at hb
        exact hlast hb
      have hj1 : j + 1 < dts.length := by omega
      have hy1 : yrs.get? (j + 1) = some (yrs.get ⟨j + 1, by omega⟩) :=
        List.get?_eq_get (by omega)
      have hd1 : dts.get? (j + 1) = some (dts.get ⟨j + 1, hj1⟩) := List.get?_eq_get hj1
      have hx1 : X.get? (j + 1) = some (X.get ⟨j + 1, by omega⟩) := List.get?_eq_get (by omega)
      rw [hy1, hd1, hx1]
      simp only
      exact consume_total hl1 hl2 hasc fuel (j + 1) _ _ hj1 (by omega) hlast
    · rw [if_neg hb]
      rfl

/-- The sweep cannot fail when the end boundary sits on the cursor grid and
the last event lies at or past it. -/
theorem sweep_total {yrs : List ℤ} {dts X : List ℚ} {m : String} {itv : ℤ} {eA : ℚ}
    (hl1 : yrs.length = dts.length) (hl2 : X.length = dts.length)
    (hasc : Ascending yrs dts) (hitv : 0 < itv) :
    ∀ (fuel K : ℕ) (cur : ℚ) (j : ℕ) (A : List ℤ) (B C : List ℚ),
      eA = cur + (K : ℚ) * (itv : ℚ) →
      K < fuel →
      j < dts.length →
      ¬ timeAt yrs dts (dts.length - 1) < eA →
      (sweep yrs dts X m itv eA fuel cur j A B C).isSome
  | 0, K, cur, j, A, B, C, halign, hfuel, hj, hlast => by omega
  | fuel + 1, K, cur, j, A, B, C, halign, hfuel, hj, hlast => by
    by_cases hc : cur < eA
    · have hitvq : (0 : ℚ) < (itv : ℚ) := by exact_mod_cast hitv
      have hK : 1 ≤ K := by
        by_contra hcon
        have : K = 0 := by omega
        rw [this] at halign
        simp at halign
        rw [halign] at hc
        exact lt_irrefl _ hc
      have hBd : cur + (itv : ℚ) ≤ eA := by
        rw [halign]
        have : (1 : ℚ) ≤ (K : ℚ) := by exact_mod_cast hK
        nlinarith
      have hlastB : ¬ timeAt yrs dts (dts.length - 1) < cur + (itv : ℚ) := by
        intro hcon
        exact hlast (lt_of_lt_of_le hcon hBd)
      have hcons := consume_total hl1 hl2 hasc (dts.length + 1) j 0 0 hj (by omega) hlastB
      cases hval : consume yrs dts X (cur + (itv : ℚ)) (dts.length + 1) j 0 0 with
      | none => rw [hval] at hcons; simp at hcons
      | some o =>
        obtain ⟨j1, acc, cnt⟩ := o
        obtain ⟨-, hlen, -, -, -, -⟩ := consume_spec hl1 hl2 _ _ _ _ _ hval
        simp only [sweep, if_pos hc, hval]
        have halign' : eA = (cur + (itv : ℚ)) + ((K - 1 : ℕ) : ℚ) * (itv : ℚ) := by
          rw [halign]
          have : ((K - 1 : ℕ) : ℚ) = (K : ℚ) - 1 := by
            push_cast [hK]
            ring
          rw [this]
          ring
        exact sweep_total hl1 hl2 hasc hitv fuel (K - 1) (cur + (itv : ℚ)) j1 _ _ _
          halign' (by omega) hlen hlast
    · simp [sweep, hc]

/-- If the last event's second-of-day is an exact multiple of the interval,
the end boundary is the last event itself. -/
theorem endOf_exact {dtL : ℚ} {itv : ℤ} (hitv : 0 < itv) (E : ℤ)
    (hE : (dtL - ⌊dtL⌋) * 86400 = (E : ℚ) * (itv : ℚ)) : endOf dtL itv = dtL := by
  have hitvq : (0 : ℚ) < (itv : ℚ) := by exact_mod_cast hitv
  have hdivq : (dtL - ⌊dtL⌋) * 86400 / (itv : ℚ) = (E : ℚ) := by
    rw [hE]
    field_simp
  unfold endOf endtimeOf
  rw [hdivq, Int.floor_intCast]
  have : ((E * itv : ℤ) : ℚ) = (dtL - ⌊dtL⌋) * 86400 := by
    push_cast
    rw [← hE]
  rw [this]
  field_simp

theorem winSum_zero_two (X : List ℚ) : winSum X 0 2 = X.getD 1 0 + X.getD 2 0 := by
  unfold winSum
  rw [Nat.Ico_zero_eq_range, Finset.sum_range_succ, Finset.sum_range_one]

theorem winSum_single (X : List ℚ) (a : ℕ) : winSum X a (a + 1) = X.getD (a + 1) 0 := by
  unfold winSum
  rw [Finset.sum_eq_sum_Ico_succ_bot (by omega : a < a + 1), Finset.Ico_self,
    Finset.sum_empty, add_zero]

theorem list_eq_of_getD {α : Type} (l1 l2 : List α) (d : α) (hlen : l1.length = l2.length)
    (h : ∀ i, i < l1.length → l1.getD i d = l2.getD i d) : l1 = l2 := by
  apply List.ext_get hlen
  intro i h1 h2
  have hh := h i h1
  rwa [List.getD_eq_get l1 d h1, List.getD_eq_get l2 d h2] at hh

/-- C5 (amended): resampling an already equidistant, on-grid series whose
spacing equals the interval does not reproduce it; it drops the first two
events into the first bucket (the off-by-one consumption starts at `X[1]`)
and omits a row for the first event, yielding `n - 2` rows: row 0 carries
`X[1] + X[2]` over a count of 2, and row `k ≥ 1` carries the single value
`X[k + 2]`. -/
theorem event2time_equidistant_drops_head (y : ℤ) (t0 : ℚ) (n : ℕ) (X : List ℚ)
    (m : String) (itv : ℤ) (mg : ℕ)
    (hy : 1 ≤ y) (hn : 2 ≤ n) (hX : X.length = n) (hm : m = "sum" ∨ m = "avg")
    (h1 : 1 ≤ itv) (hlt : itv < 86400) (hdvd : itv ∣ 86400)
    (hgrid : (t0 - ⌊t0⌋) * 86400 = (mg : ℚ) * (itv : ℚ))
    (ht0 : 1 ≤ ⌊t0⌋)
    (hendy : ⌊t0 + ((n - 1 : ℕ) : ℚ) * ((itv : ℚ) / 86400)⌋ ≤ (yearLen y : ℤ)) :
    event2time (List.replicate n y)
        ((List.range n).map fun k : ℕ => t0 + (k : ℚ) * ((itv : ℚ) / 86400)) X m (some itv) =
      some (List.replicate (n - 2) y,
        (List.range (n - 2)).map (fun k => t0 + ((k + 2 : ℕ) : ℚ) * ((itv : ℚ) / 86400)),
        (List.range (n - 2)).map (fun k =>
          if k = 0 then emit m (X.getD 1 0 + X.getD 2 0) 2
          else emit m (X.getD (k + 2) 0) 1)) := by
  have hitvq : (0 : ℚ) < (itv : ℚ) := by exact_mod_cast h1
  have hq86 : (itv : ℚ) / 86400 * 86400 = (itv : ℚ) :=
    div_mul_cancel₀ _ (by norm_num)
  have hqpos : (0 : ℚ) < (itv : ℚ) / 86400 := by positivity
  obtain ⟨c, hc⟩ := hdvd
  have hcq : (86400 : ℚ) = (itv : ℚ) * (c : ℚ) := by exact_mod_cast hc
  -- the input lists
  have hld : ((List.range n).map fun k : ℕ => t0 + (k : ℚ) * ((itv : ℚ) / 86400)).length = n := by
    simp
  have hly : (List.replicate n y).length = n := by simp
  have hl1 : (List.replicate n y).length =
      ((List.range n).map fun k : ℕ => t0 + (k : ℚ) * ((itv : ℚ) / 86400)).length := by
    rw [hld, hly]
  have hl2 : X.length =
      ((List.range n).map fun k : ℕ => t0 + (k : ℚ) * ((itv : ℚ) / 86400)).length := by
    rw [hld, hX]
  have hget : ∀ k, k < n →
      ((List.range n).map fun k : ℕ => t0 + (k : ℚ) * ((itv : ℚ) / 86400)).get? k =
        some (t0 + (k : ℚ) * ((itv : ℚ) / 86400)) := by
    intro k hk
    rw [List.get?_map, List.get?_range hk]
    rfl
  have hgy : ∀ k, k < n → (List.replicate n y).get? k = some y := by
    intro k hk
    rw [List.get?_eq_get (by simpa using hk)]
    simp [List.get_replicate]
  have htime : ∀ k, k < n →
      timeAt (List.replicate n y) ((List.range n).map fun k : ℕ => t0 + (k : ℚ) * ((itv : ℚ) / 86400)) k =
        dtAbs y t0 + (k : ℚ) * (itv : ℚ) := by
    intro k hk
    unfold timeAt
    rw [getD_of_get? 0 (hgy k hk), getD_of_get? 0 (hget k hk), dtAbs_eq, dtAbs_eq]
    linear_combination (k : ℚ) * hq86
  have hasc : Ascending (List.replicate n y)
      ((List.range n).map fun k : ℕ => t0 + (k : ℚ) * ((itv : ℚ) / 86400)) := by
    intro i hi
    rw [hld] at hi
    rw [htime i (by omega), htime (i + 1) (by omega)]
    have hle : ((i : ℚ)) ≤ ((i + 1 : ℕ) : ℚ) := by push_cast; linarith
    have := mul_le_mul_of_nonneg_right hle (le_of_lt hitvq)
    linarith
  -- start boundary
  have hssb := (startsecond_bounds t0).2
  have hfl : ⌊(t0 - ⌊t0⌋) * 86400 / (itv : ℚ)⌋ = (mg : ℤ) := by
    rw [hgrid, mul_div_cancel_right₀ _ (ne_of_gt hitvq)]
    exact Int.floor_natCast mg
  have hendt : endtimeOf t0 itv = (mg : ℤ) * itv := by
    unfold endtimeOf
    rw [hfl]
  have hmgc : (mg : ℤ) < c := by
    have hlt86 : ((mg : ℤ) : ℚ) * (itv : ℚ) < 86400 := by
      push_cast
      rw [← hgrid]
      exact hssb
    have hzz : ((mg : ℤ) : ℚ) * (itv : ℚ) < (c : ℚ) * (itv : ℚ) := by
      rw [mul_comm (c : ℚ)]
      rw [← hcq]
      exact hlt86
    have : ((mg : ℤ) : ℚ) < (c : ℚ) := lt_of_mul_lt_mul_right hzz (le_of_lt hitvq)
    exact_mod_cast this
  have hnoclamp : ¬ ((mg : ℤ) * itv + itv > 86400) := by
    have h2 := mul_le_mul_of_nonneg_right (by omega : (mg : ℤ) + 1 ≤ c) (by omega : (0:ℤ) ≤ itv)
    have : c * itv = 86400 := by rw [mul_comm] at hc; omega
    nlinarith
  have hstq : starttimeOf t0 itv = (mg : ℤ) * itv + itv := by
    rw [starttimeOf_def, hendt, if_pos hlt, if_neg hnoclamp]
  have hstart : startOf t0 itv = t0 + (itv : ℚ) / 86400 := by
    unfold startOf
    rw [hstq]
    push_cast
    field_simp
    linarith [hgrid]
  have hsAeq : startAbsOf y t0 itv = dtAbs y t0 + (itv : ℚ) := by
    unfold startAbsOf
    rw [hstart, dtAbs_eq, dtAbs_eq]
    linear_combination hq86
  -- end boundary
  have hE : (t0 + ((n - 1 : ℕ) : ℚ) * ((itv : ℚ) / 86400) -
        ⌊t0 + ((n - 1 : ℕ) : ℚ) * ((itv : ℚ) / 86400)⌋) * 86400 =
      ((c * ⌊t0⌋ + mg + (n - 1 : ℕ) - c * ⌊t0 + ((n - 1 : ℕ) : ℚ) * ((itv : ℚ) / 86400)⌋ : ℤ) : ℚ)
        * (itv : ℚ) := by
    push_cast
    linear_combination hgrid + ((n - 1 : ℕ) : ℚ) * hq86 +
      ((⌊t0⌋ : ℚ) - (⌊t0 + ((n - 1 : ℕ) : ℚ) * ((itv : ℚ) / 86400)⌋ : ℚ)) * hcq
  have hendOf : endOf (t0 + ((n - 1 : ℕ) : ℚ) * ((itv : ℚ) / 86400)) itv =
      t0 + ((n - 1 : ℕ) : ℚ) * ((itv : ℚ) / 86400) := endOf_exact (by omega) _ hE
  have heAeq : endAbsOf y (t0 + ((n - 1 : ℕ) : ℚ) * ((itv : ℚ) / 86400)) itv =
      dtAbs y t0 + ((n - 1 : ℕ) : ℚ) * (itv : ℚ) := by
    unfold endAbsOf
    rw [hendOf, dtAbs_eq, dtAbs_eq]
    linear_combination ((n - 1 : ℕ) : ℚ) * hq86
  have hn1 : ((n - 1 : ℕ) : ℚ) = ((n - 2 : ℕ) : ℚ) + 1 := by
    have h : (n - 1 : ℕ) = (n - 2 : ℕ) + 1 := by omega
    rw [h]
    push_cast
    ring
  have hdiff : endAbsOf y (t0 + ((n - 1 : ℕ) : ℚ) * ((itv : ℚ) / 86400)) itv -
      startAbsOf y t0 itv = ((n - 2 : ℕ) : ℚ) * (itv : ℚ) := by
    rw [hsAeq, heAeq, hn1]
    ring
  -- the ends of the input
  have hy0 : (List.replicate n y).get? 0 = some y := hgy 0 (by omega)
  have hyL : (List.replicate n y).get? ((List.replicate n y).length - 1) = some y := by
    rw [hly]
    exact hgy (n - 1) (by omega)
  have hdt0 : ((List.range n).map fun k : ℕ => t0 + (k : ℚ) * ((itv : ℚ) / 86400)).get? 0 =
      some t0 := by
    rw [hget 0 (by omega)]
    norm_num
  have hdtL : ((List.range n).map fun k : ℕ => t0 + (k : ℚ) * ((itv : ℚ) / 86400)).get?
        (((List.range n).map fun k : ℕ => t0 + (k : ℚ) * ((itv : ℚ) / 86400)).length - 1) =
      some (t0 + ((n - 1 : ℕ) : ℚ) * ((itv : ℚ) / 86400)) := by
    rw [hld]
    exact hget (n - 1) (by omega)
  rw [event2time_eq_sweep _ _ X m itv h1 (by omega) hm hy0 hdt0 hyL hdtL]
  have hfuel : (⌈(endAbsOf y (t0 + ((n - 1 : ℕ) : ℚ) * ((itv : ℚ) / 86400)) itv -
        startAbsOf y t0 itv) / (itv : ℚ)⌉).toNat + 1 = (n - 2) + 1 := by
    rw [hdiff, mul_div_assoc, div_self (ne_of_gt hitvq), mul_one, Int.ceil_natCast]
    simp
  rw [hfuel]
  have hlast : ¬ timeAt (List.replicate n y)
      ((List.range n).map fun k : ℕ => t0 + (k : ℚ) * ((itv : ℚ) / 86400))
      (((List.range n).map fun k : ℕ => t0 + (k : ℚ) * ((itv : ℚ) / 86400)).length - 1) <
      endAbsOf y (t0 + ((n - 1 : ℕ) : ℚ) * ((itv : ℚ) / 86400)) itv := by
    rw [show ((List.range n).map fun k : ℕ => t0 + (k : ℚ) * ((itv : ℚ) / 86400)).length - 1 =
          n - 1 from by rw [hld],
        htime (n - 1) (by omega), heAeq]
    exact lt_irrefl _
  have hsome := @sweep_total (List.replicate n y)
    ((List.range n).map fun k : ℕ => t0 + (k : ℚ) * ((itv : ℚ) / 86400)) X m itv
    (endAbsOf y (t0 + ((n - 1 : ℕ) : ℚ) * ((itv : ℚ) / 86400)) itv)
    hl1 hl2 hasc (by omega) ((n - 2) + 1) (n - 2) (startAbsOf y t0 itv) 0 [] [] []
    (by linarith [hdiff]) (by omega) (by rw [hld]; omega) hlast
  obtain ⟨out, hout⟩ := Option.isSome_iff_exists.mp hsome
  obtain ⟨⟨hlen1, hlen2⟩, hrows, hendb, hbnd⟩ :=
    sweep_rows _ _ X m itv _ _ _ _ out hout
  obtain ⟨hvals, hmono, hclass, hsum⟩ :=
    sweep_vals _ _ X m itv _ hl1 hl2 hasc (by omega) _ _ 0 out
      (fun k hk => absurd hk (Nat.not_lt_zero k)) hout
  have hN : out.2.2.length = n - 2 := by
    have hge : ((n - 2 : ℕ) : ℚ) ≤ (out.2.2.length : ℚ) := by
      apply le_of_mul_le_mul_right _ hitvq
      linarith [hendb, hdiff]
    have hge2 : (n - 2 : ℕ) ≤ out.2.2.length := by exact_mod_cast hge
    have hle : out.2.2.length ≤ n - 2 := by
      by_contra hcon
      push_neg at hcon
      have := hbnd (n - 2) (by omega)
      linarith [hdiff]
    omega
  have hptr : ∀ i : ℕ, 1 ≤ i → i ≤ n - 2 →
      ptr (List.replicate n y) ((List.range n).map fun k : ℕ => t0 + (k : ℚ) * ((itv : ℚ) / 86400))
        (startAbsOf y t0 itv) itv 0 i = i + 1 := by
    intro i hi1 hi2
    obtain ⟨i2, rfl⟩ : ∃ i2, i = i2 + 1 := ⟨i - 1, by omega⟩
    show cnsm _ _ (startAbsOf y t0 itv + ((i2 + 1 : ℕ) : ℚ) * (itv : ℚ)) = i2 + 1 + 1
    apply cnsm_eq_of
    · rw [hld]
      omega
    · intro k hk
      rw [htime k (by omega), hsAeq]
      have hkle : (k : ℚ) ≤ ((i2 : ℚ) + 1) := by exact_mod_cast (by omega : k ≤ i2 + 1)
      have := mul_le_mul_of_nonneg_right hkle (le_of_lt hitvq)
      push_cast
      linarith
    · intro k hk1 hk2
      rw [hld] at hk2
      rw [htime k hk2, hsAeq]
      intro hcon
      have hkge : ((i2 : ℚ) + 2) ≤ (k : ℚ) := by exact_mod_cast (by omega : i2 + 2 ≤ k)
      have := mul_le_mul_of_nonneg_right hkge (le_of_lt hitvq)
      push_cast at hcon
      linarith
  -- identify the three output lists
  have hA : out.1 = List.replicate (n - 2) y := by
    apply list_eq_of_getD _ _ 0 (by rw [hlen1, hN]; simp)
    intro i hi
    rw [hlen1, hN] at hi
    rw [(hrows i (by omega)).1]
    have hargT : startAbsOf y t0 itv + ((i + 1 : ℕ) : ℚ) * (itv : ℚ) =
        dtAbs y (t0 + ((i + 2 : ℕ) : ℚ) * ((itv : ℚ) / 86400)) := by
      rw [hsAeq, dtAbs_eq, dtAbs_eq]
      push_cast
      linear_combination ((i : ℚ) + 2) * hq86
    have hfl1 : 1 ≤ ⌊t0 + ((i + 2 : ℕ) : ℚ) * ((itv : ℚ) / 86400)⌋ := by
      refine le_trans ht0 (Int.floor_le_floor ?_)
      have : (0 : ℚ) ≤ ((i + 2 : ℕ) : ℚ) * ((itv : ℚ) / 86400) :=
        mul_nonneg (by positivity) (le_of_lt hqpos)
      linarith
    have hfl2 : ⌊t0 + ((i + 2 : ℕ) : ℚ) * ((itv : ℚ) / 86400)⌋ ≤ (yearLen y : ℤ) := by
      refine le_trans (Int.floor_le_floor ?_) hendy
      have hle : ((i + 2 : ℕ) : ℚ) ≤ ((n - 1 : ℕ) : ℚ) := by
        exact_mod_cast (by omega : i + 2 ≤ n - 1)
      have := mul_le_mul_of_nonneg_right hle (le_of_lt hqpos)
      linarith
    have hsv : (t0 + ((i + 2 : ℕ) : ℚ) * ((itv : ℚ) / 86400)) * 86400 =
        ((⌊t0⌋ * 86400 + (mg : ℤ) * itv + ((i : ℤ) + 2) * itv : ℤ) : ℚ) := by
      push_cast
      linear_combination hgrid + ((i : ℚ) + 2) * hq86
    rw [hargT, rowOf_roundTrip y _ itv _ hy hfl1 hfl2 hsv (by omega)]
    rw [List.getD_eq_getElem _ _ (by simpa using hi)]
    simp
  have hB : out.2.1 =
      (List.range (n - 2)).map (fun k => t0 + ((k + 2 : ℕ) : ℚ) * ((itv : ℚ) / 86400)) := by
    apply list_eq_of_getD _ _ 0 (by rw [hlen2, hN]; simp)
    intro i hi
    rw [hlen2, hN] at hi
    rw [(hrows i (by omega)).2]
    have hargT : startAbsOf y t0 itv + ((i + 1 : ℕ) : ℚ) * (itv : ℚ) =
        dtAbs y (t0 + ((i + 2 : ℕ) : ℚ) * ((itv : ℚ) / 86400)) := by
      rw [hsAeq, dtAbs_eq, dtAbs_eq]
      push_cast
      linear_combination ((i : ℚ) + 2) * hq86
    have hfl1 : 1 ≤ ⌊t0 + ((i + 2 : ℕ) : ℚ) * ((itv : ℚ) / 86400)⌋ := by
      refine le_trans ht0 (Int.floor_le_floor ?_)
      have : (0 : ℚ) ≤ ((i + 2 : ℕ) : ℚ) * ((itv : ℚ) / 86400) :=
        mul_nonneg (by positivity) (le_of_lt hqpos)
      linarith
    have hfl2 : ⌊t0 + ((i + 2 : ℕ) : ℚ) * ((itv : ℚ) / 86400)⌋ ≤ (yearLen y : ℤ) := by
      refine le_trans (Int.floor_le_floor ?_) hendy
      have hle : ((i + 2 : ℕ) : ℚ) ≤ ((n - 1 : ℕ) : ℚ) := by
        exact_mod_cast (by omega : i + 2 ≤ n - 1)
      have := mul_le_mul_of_nonneg_right hle (le_of_lt hqpos)
      linarith
    have hsv : (t0 + ((i + 2 : ℕ) : ℚ) * ((itv : ℚ) / 86400)) * 86400 =
        ((⌊t0⌋ * 86400 + (mg : ℤ) * itv + ((i : ℤ) + 2) * itv : ℤ) : ℚ) := by
      push_cast
      linear_combination hgrid + ((i : ℚ) + 2) * hq86
    rw [hargT, rowOf_roundTrip y _ itv _ hy hfl1 hfl2 hsv (by omega)]
    rw [List.getD_eq_getElem _ _ (by simpa using hi)]
    simp
  have hgetmap : ∀ (g : ℕ → ℚ) (i : ℕ), i < n - 2 →
      ((List.range (n - 2)).map g).getD i 0 = g i := by
    intro g i hi
    rw [List.getD_eq_getElem _ _ (by simpa using hi)]
    simp
  have hC : out.2.2 =
      (List.range (n - 2)).map (fun k =>
        if k = 0 then emit m (X.getD 1 0 + X.getD 2 0) 2
        else emit m (X.getD (k + 2) 0) 1) := by
    apply list_eq_of_getD _ _ 0 (by rw [hN]; simp)
    intro i hi
    rw [hN] at hi
    rw [hvals i (by omega), hgetmap _ i hi]
    rcases Nat.eq_zero_or_pos i with hi0 | hipos
    · subst hi0
      rw [if_pos rfl]
      rw [show ptr (List.replicate n y)
            ((List.range n).map fun k : ℕ => t0 + (k : ℚ) * ((itv : ℚ) / 86400))
            (startAbsOf y t0 itv) itv 0 0 = 0 from rfl,
          hptr 1 (le_refl 1) (by omega), winSum_zero_two]
    · rw [if_neg (by omega)]
      rw [hptr i (by omega) (by omega), hptr (i + 1) (by omega) (by omega)]
      rw [show i + 1 + 1 = (i + 1) + 1 from rfl, winSum_single]
      congr 1
      omega
  rw [hout, hA.symm, hB.symm, hC.symm]

set_option maxRecDepth 400000 in
unseal Rat.add Rat.sub Rat.mul Rat.inv Rat.ofScientific in
/-- Witness for the amended C5 theorem: a concrete four-event equidistant
series at a six-hour interval. -/
theorem event2time_equidistant_drops_head_witness :
    event2time (List.replicate 4 (2008 : ℤ))
        ((List.range 4).map fun k : ℕ => (613 : ℚ) / 4 + (k : ℚ) * (((21600 : ℤ) : ℚ) / 86400))
        [1, 2, 3, 4] "sum" (some 21600) =
      some (List.replicate 2 (2008 : ℤ),
        (List.range 2).map (fun k =>
          (613 : ℚ) / 4 + ((k + 2 : ℕ) : ℚ) * (((21600 : ℤ) : ℚ) / 86400)),
        (List.range 2).map (fun k =>
          if k = 0 then
            emit "sum" (([1, 2, 3, 4] : List ℚ).getD 1 0 + ([1, 2, 3, 4] : List ℚ).getD 2 0) 2
          else emit "sum" (([1, 2, 3, 4] : List ℚ).getD (k + 2) 0) 1)) :=
  event2time_equidistant_drops_head 2008 ((613 : ℚ) / 4) 4 [1, 2, 3, 4] "sum" 21600 1
    (by decide) (by decide) rfl (Or.inl rfl) (by decide) (by decide)
    ⟨4, by decide⟩ (by decide) (by decide) (by decide)

end Hidropy
